import Mathlib

/-!
Shallow embedding of the trajectory-network construction and metric
aggregation pipeline (`constructor.py`, `algorithms.py`), together with
theorems checking the specification's claims against it.

Conventions of the embedding:
  * Python floats are modelled as rationals (`ℚ`); every numeric value the
    claims touch is exactly representable.
  * Python dicts are modelled as insertion-ordered association lists with
    unique keys; updating an existing key rewrites its entry in place,
    inserting a new key appends at the end (Python 3.7+ dict semantics).
  * Fallible code (an uncaught `IndexError`) is modelled with `Option`.
-/

/-- A parsed input row `(timestamp, x, y, id)` (constructor.py line 60). -/
structure Row where
  time : Int
  x : ℚ
  y : ℚ
  id : String
deriving DecidableEq, Repr

/-- An active object `{"x":…, "y":…, "id":…}` (constructor.py line 128). -/
structure PointRec where
  x : ℚ
  y : ℚ
  id : String
deriving DecidableEq, Repr

/-- A proximity edge `{"from":…, "to":…, "id":…}` (constructor.py lines
163-164).  The Python keys `from` and `to` are Lean keywords, hence the
trailing underscores. -/
structure Edge where
  from_ : String
  to_ : String
  id : String
deriving DecidableEq, Repr

/-- A node lifecycle record `{"first":…, "last":…}` (constructor.py line 190). -/
structure NodeRec where
  first : Int
  last : Int
deriving DecidableEq, Repr

/-- An edge lifecycle record (constructor.py lines 205-206). -/
structure EdgeRec where
  first : Int
  last : Int
  from_ : String
  to_ : String
deriving DecidableEq, Repr

/-- A network snapshot `{"nodes": …, "edges": …}` (constructor.py lines
121-122). -/
structure Snapshot where
  nodes : List PointRec
  edges : List Edge
deriving DecidableEq, Repr

def toPoint (r : Row) : PointRec := ⟨r.x, r.y, r.id⟩

/-- Squared Euclidean distance.  `Constructor.distance` (constructor.py lines
169-175) returns `math.sqrt` of exactly this sum and the caller compares that
square root against the threshold; `withinThreshold` below packages the
comparison, and `withinThreshold_iff_sqrt` proves it equal to the source's
`sqrt (distance_sq) ≤ threshold` test. -/
def distance_sq (p q : PointRec) : ℚ :=
  (p.x - q.x) ^ 2 + (p.y - q.y) ^ 2

/-- The proximity test `self.distance(a, b) <= self.threshold`
(constructor.py line 157).  Since the source's left-hand side is a (real)
square root, the test is false whenever `t < 0` and otherwise equivalent to
comparing squares; see `withinThreshold_iff_sqrt`. -/
def withinThreshold (d2 t : ℚ) : Bool :=
  decide (0 ≤ t) && decide (d2 ≤ t ^ 2)

/-- Python's string comparison: lexicographic on Unicode code points
(used by `min`/`max` on ids, constructor.py lines 160-161). -/
def charListLe : List Char → List Char → Bool
  | [], _ => true
  | _ :: _, [] => false
  | a :: as, b :: bs =>
      if a.toNat < b.toNat then true
      else if b.toNat < a.toNat then false
      else charListLe as bs

def strLe (a b : String) : Bool := charListLe a.data b.data

/-- Python `min` on two id strings (constructor.py line 160). -/
def strMin (a b : String) : String := if strLe a b then a else b

/-- Python `max` on two id strings (constructor.py line 161). -/
def strMax (a b : String) : String := if strLe a b then b else a

/-- Python's strict `<` on two id strings: `≤` and not equal. -/
def strLt (a b : String) : Bool := strLe a b && !(a == b)

/-- The edge built for a pair of points within the threshold
(constructor.py lines 159-164): ids are put in (string) order, the edge id
is the ordered ids joined by an underscore. -/
def mkEdge (p q : PointRec) : Edge :=
  ⟨strMin p.id q.id, strMax p.id q.id, strMin p.id q.id ++ "_" ++ strMax p.id q.id⟩

/-- `Constructor.get_proximity_network` (constructor.py lines 143-166):
examine every index pair `i < j` in list order and keep an edge for each
pair within the distance threshold. -/
def get_proximity_network (threshold : ℚ) : List PointRec → List Edge
  | [] => []
  | p :: rest =>
      rest.filterMap (fun q =>
        if withinThreshold (distance_sq p q) threshold then some (mkEdge p q) else none)
      ++ get_proximity_network threshold rest

/-- One step of `Constructor.update_nodes` (constructor.py lines 182-190):
if the id exists, overwrite its `last`; otherwise insert a fresh record at
the end (Python dict insertion order). -/
def updateNode1 (time : Int) (node : PointRec) :
    List (String × NodeRec) → List (String × NodeRec)
  | [] => [(node.id, ⟨time, time⟩)]
  | p :: rest =>
      if p.1 = node.id then (p.1, { p.2 with last := time }) :: rest
      else p :: updateNode1 time node rest

/-- `Constructor.update_nodes` (constructor.py lines 178-190). -/
def update_nodes (time : Int) (nodes : List PointRec)
    (d : List (String × NodeRec)) : List (String × NodeRec) :=
  nodes.foldl (fun d node => updateNode1 time node d) d

/-- One step of `Constructor.update_edges` (constructor.py lines 197-206). -/
def updateEdge1 (time : Int) (e : Edge) :
    List (String × EdgeRec) → List (String × EdgeRec)
  | [] => [(e.id, ⟨time, time, e.from_, e.to_⟩)]
  | p :: rest =>
      if p.1 = e.id then (p.1, { p.2 with last := time }) :: rest
      else p :: updateEdge1 time e rest

/-- `Constructor.update_edges` (constructor.py lines 193-206). -/
def update_edges (time : Int) (edges : List Edge)
    (d : List (String × EdgeRec)) : List (String × EdgeRec) :=
  edges.foldl (fun d e => updateEdge1 time e d) d

/-- The dictionaries built by `Constructor.__init__`: `node_dict`,
`edge_dict` and `time_networks` (constructor.py lines 101-106). -/
structure ConState where
  node_dict : List (String × NodeRec)
  edge_dict : List (String × EdgeRec)
  time_networks : List (Int × Snapshot)
deriving DecidableEq, Repr

/-- The loop variables of `Constructor.__init__`'s row iteration:
`time`, `active_objects` and the dictionaries (constructor.py lines 104-106). -/
structure LoopState where
  time : Int
  active : List PointRec
  st : ConState
deriving DecidableEq, Repr

/-- Flushing one finished timestamp group (constructor.py lines 115-122):
compute the proximity network, update both lifecycle dictionaries and
record the snapshot unconditionally. -/
def flushGroup (threshold : ℚ) (st : ConState) (g : Int × List PointRec) : ConState :=
  let network := get_proximity_network threshold g.2
  { node_dict := update_nodes g.1 g.2 st.node_dict
    edge_dict := update_edges g.1 network st.edge_dict
    time_networks := st.time_networks ++ [(g.1, ⟨g.2, network⟩)] }

/-- Flushing the final timestamp group (constructor.py lines 130-139):
lifecycle dictionaries are updated unconditionally, but the snapshot is
recorded only if the computed edge list is non-empty
(`if len(network) > 0`). -/
def finalFlushGroup (threshold : ℚ) (st : ConState) (g : Int × List PointRec) : ConState :=
  let network := get_proximity_network threshold g.2
  { node_dict := update_nodes g.1 g.2 st.node_dict
    edge_dict := update_edges g.1 network st.edge_dict
    time_networks :=
      if network.isEmpty then st.time_networks
      else st.time_networks ++ [(g.1, ⟨g.2, network⟩)] }

/-- One iteration of the row loop (constructor.py lines 110-128): when the
timestamp changes, flush the finished group and start a new one (the source
clears `active_objects` and then appends the current row's point); otherwise
just append the point. -/
def stepRow (threshold : ℚ) (s : LoopState) (r : Row) : LoopState :=
  if r.time ≠ s.time then
    { time := r.time, active := [toPoint r],
      st := flushGroup threshold s.st (s.time, s.active) }
  else
    { s with active := s.active ++ [toPoint r] }

/-- `Constructor.__init__` (constructor.py lines 94-139).  On empty input
the source raises an uncaught `IndexError` at `data[0][0]` (line 104),
modelled as `none`.  Otherwise: iterate `stepRow` over all rows starting
from the first row's timestamp with an empty group, then flush the final
group with the trailing-snapshot condition. -/
def constructorInit (data : List Row) (threshold : ℚ) : Option ConState :=
  match data with
  | [] => none
  | r0 :: _ =>
      let fin := data.foldl (stepRow threshold) ⟨r0.time, [], ⟨[], [], []⟩⟩
      some (finalFlushGroup threshold fin.st (fin.time, fin.active))

/-- The contiguous timestamp groups the row loop forms, starting from
current timestamp `t` with already-accumulated points `acc`. -/
def groupsFrom (t : Int) (acc : List PointRec) : List Row → List (Int × List PointRec)
  | [] => [(t, acc)]
  | r :: rest =>
      if r.time ≠ t then (t, acc) :: groupsFrom r.time [toPoint r] rest
      else groupsFrom t (acc ++ [toPoint r]) rest

/-- The contiguous timestamp groups of an input sequence, as the row loop
of `Constructor.__init__` forms them. -/
def groups : List Row → List (Int × List PointRec)
  | [] => []
  | r :: rest => groupsFrom r.time [toPoint r] rest

/-- Group-level description of `Constructor.__init__`: flush every group,
the last one with the trailing-snapshot condition.  `constructorInit_eq_groups`
proves the row loop equal to this. -/
def buildGroups (threshold : ℚ) (st : ConState) : List (Int × List PointRec) → ConState
  | [] => st
  | [g] => finalFlushGroup threshold st g
  | g :: g' :: gs => buildGroups threshold (flushGroup threshold st g) (g' :: gs)

/-- The five metric flags of the aggregator (algorithms.py lines 56-60). -/
structure Metrics where
  degree : Bool
  triangles : Bool
  membership : Bool
  components : Bool
  connectedness : Bool
deriving DecidableEq, Repr

/-- Per-value duration histogram of one node: Python dict value → count. -/
abbrev ValueHist := List (Nat × Nat)

/-- Per-node duration histograms of one node metric. -/
abbrev NodeHist := List (String × ValueHist)

/-- Per-entity duration counters of one item metric (triangles, components). -/
abbrev ItemHist := List (String × Nat)

/-- The `self.history` structure (algorithms.py lines 99-104). -/
structure History where
  degree : NodeHist
  triangles : ItemHist
  membership : NodeHist
  components : ItemHist
  connectedness : NodeHist
deriving DecidableEq, Repr

/-- The inner dict update of `store_node_metric_duration` (algorithms.py
lines 122-131): a known value's duration is incremented, a new value is
added with duration 1 at the end. -/
def updHist (value : Nat) : ValueHist → ValueHist
  | [] => [(value, 1)]
  | p :: rest =>
      if p.1 = value then (p.1, p.2 + 1) :: rest
      else p :: updHist value rest

/-- `NodeImportance.store_node_metric_duration` (algorithms.py lines
112-131), acting on the dict of the chosen metric: a brand-new node gets
`{value: 1}`, an existing node's histogram is updated by `updHist`. -/
def store_node_metric_duration (node_id : String) (value : Nat) : NodeHist → NodeHist
  | [] => [(node_id, [(value, 1)])]
  | p :: rest =>
      if p.1 = node_id then (p.1, updHist value p.2) :: rest
      else p :: store_node_metric_duration node_id value rest

/-- `NodeImportance.store_item_metric_duration` (algorithms.py lines
134-147), acting on the dict of the chosen metric. -/
def store_item_metric_duration (item_id : String) : ItemHist → ItemHist
  | [] => [(item_id, 1)]
  | p :: rest =>
      if p.1 = item_id then (p.1, p.2 + 1) :: rest
      else p :: store_item_metric_duration item_id rest

/-- Appending a graph node if absent (networkx `Graph.add_node`:
insertion-ordered node dict, duplicates ignored). -/
def insertNew (l : List String) (x : String) : List String :=
  if x ∈ l then l else l ++ [x]

/-- The node list of the snapshot graph `G` (algorithms.py lines 163-166):
`add_nodes_from` over the snapshot's node ids, then `add_edges_from` also
registers both endpoints of every edge. -/
def graphNodes (s : Snapshot) : List String :=
  s.edges.foldl (fun l e => insertNew (insertNew l e.from_) e.to_)
    (s.nodes.foldl (fun l n => insertNew l n.id) [])

/-- Adjacency in the snapshot graph `G`: two ids are adjacent iff some
edge of the snapshot joins them (in either orientation). -/
def adjB (s : Snapshot) (a b : String) : Bool :=
  s.edges.any (fun e => (e.from_ == a && e.to_ == b) || (e.from_ == b && e.to_ == a))

/-- Degree of a node in the snapshot graph (`nx.degree`, algorithms.py line
172): number of distinct neighbours, a self-loop counting twice. -/
def degree (s : Snapshot) (v : String) : Nat :=
  ((graphNodes s).filter (fun u => adjB s v u && u != v)).length
    + (if adjB s v v then 2 else 0)

/-- Neighbour set of `v` in the snapshot graph, without `v` itself. -/
def nbrsOf (s : Snapshot) (v : String) : List String :=
  (graphNodes s).filter (fun u => adjB s v u && u != v)

/-- Number of adjacent (unordered) pairs inside a node list. -/
def countAdjPairs (s : Snapshot) : List String → Nat
  | [] => 0
  | a :: rest => (rest.filter (fun b => adjB s a b)).length + countAdjPairs s rest

/-- Triangle-membership count of a node (`nx.triangles`, algorithms.py line
195): number of adjacent pairs among its neighbours. -/
def membershipCount (s : Snapshot) (v : String) : Nat :=
  countAdjPairs s (nbrsOf s v)

/-- One step of the union-by-merge construction of connected components:
all components linked to `v` are merged together with `v`. -/
def addVert (s : Snapshot) (comps : List (List String)) (v : String) : List (List String) :=
  let link := fun (c : List String) => c.any (fun u => adjB s v u)
  (comps.filter (fun c => !(link c))) ++ [v :: (comps.filter link).flatten]

/-- The connected components of the snapshot graph
(`nx.connected_components`, algorithms.py line 206), each component as its
list of member ids. -/
def connectedComponents (s : Snapshot) : List (List String) :=
  (graphNodes s).foldl (addVert s) []

/-- Insertion into a sorted id list, by Python string order. -/
def insertSorted (x : String) : List String → List String
  | [] => [x]
  | y :: ys => if strLe x y then x :: y :: ys else y :: insertSorted x ys

/-- Python `sorted` on a list of id strings. -/
def sortIds (l : List String) : List String := l.foldr insertSorted []

/-- Python `'_'.join` on a list of id strings. -/
def joinIds : List String → String
  | [] => ""
  | [x] => x
  | x :: xs => x ++ "_" ++ joinIds xs

/-- A triangle's composite key: `'_'.join(sorted(triangle))` (algorithms.py
line 188). -/
def triangleId (t : String × String × String) : String :=
  joinIds (sortIds [t.1, t.2.1, t.2.2])

/-- A component's composite key: `'_'.join(sorted(component))`
(algorithms.py line 212). -/
def componentId (c : List String) : String :=
  joinIds (sortIds c)

/-- The inner loops of `NaiveNodeImportance.get_all_triangles`
(algorithms.py lines 243-255): walk the not-yet-handled neighbours `ns` of
`v` carrying the `neighbors_done` accumulator `nd`; a neighbour `u` already
in the global `done` set is skipped, otherwise every `common ∈ nbrs ∩ G[u]`
not in `done` and not in `neighbors_done ∪ {u}` yields the triple
`(v, u, common)`. -/
def triInner {V : Type} [DecidableEq V] (adj : V → V → Bool) (done : List V)
    (v : V) (nbrs : List V) : List V → List V → List (V × V × V)
  | [], _ => []
  | u :: rest, nd =>
      if u ∈ done then triInner adj done v nbrs rest nd
      else
        (nbrs.filter
            (fun w => adj u w && !(decide (w ∈ done)) && !(decide (w ∈ u :: nd)))).map
          (fun w => (v, u, w))
        ++ triInner adj done v nbrs rest (u :: nd)

/-- The outer loop of `get_all_triangles` (algorithms.py lines 237-255):
process the vertices of `os` in order, each vertex first being added to the
global `done` set, its neighbour set taken from the full vertex list `vs`. -/
def triOuter {V : Type} [DecidableEq V] (vs : List V) (adj : V → V → Bool) :
    List V → List V → List (V × V × V)
  | [], _ => []
  | v :: rest, done =>
      triInner adj (v :: done) v (vs.filter (adj v)) (vs.filter (adj v)) []
        ++ triOuter vs adj rest (v :: done)

/-- `NaiveNodeImportance.get_all_triangles` (algorithms.py lines 231-256)
on a graph given by its vertex list and (boolean) adjacency. -/
def get_all_triangles {V : Type} [DecidableEq V] (vs : List V) (adj : V → V → Bool) :
    List (V × V × V) :=
  triOuter vs adj vs []

/-- Processing one snapshot in `NaiveNodeImportance.__init__` (algorithms.py
lines 160-226).  The component metrics share the single generator
`nx.connected_components(G)` (line 206): when the `components` loop runs it
exhausts that generator, so the subsequent `connectedness` loop iterates
over nothing — faithfully modelled by `remaining` below. -/
def processSnapshot (metrics : Metrics) (h : History) (s : Snapshot) : History :=
  let vs := graphNodes s
  let h1 :=
    if metrics.degree then
      { h with degree := vs.foldl (fun d v => store_node_metric_duration v (degree s v) d) h.degree }
    else h
  let h2 :=
    if metrics.triangles then
      let tl := (get_all_triangles vs (adjB s)).foldl
        (fun d t => store_item_metric_duration (triangleId t) d) h1.triangles
      { h1 with triangles := tl }
    else h1
  let h3 :=
    if metrics.membership then
      let ml := vs.foldl
        (fun d v => store_node_metric_duration v (membershipCount s v) d) h2.membership
      { h2 with membership := ml }
    else h2
  let comps := connectedComponents s
  let h4 :=
    if metrics.components then
      let cl := comps.foldl
        (fun d c => store_item_metric_duration (componentId c) d) h3.components
      { h3 with components := cl }
    else h3
  let remaining := if metrics.components then [] else comps
  let h5 :=
    if metrics.connectedness then
      let dl := remaining.foldl
        (fun d c => c.foldl (fun d2 v => store_node_metric_duration v (c.length - 1) d2) d)
        h4.connectedness
      { h4 with connectedness := dl }
    else h4
  h5

/-- `NaiveNodeImportance.__init__` (algorithms.py lines 155-228): fold the
per-snapshot processing over the snapshot sequence (`data.values()` in file
order), starting from the empty history. -/
def naiveNodeImportance (snaps : List Snapshot) (metrics : Metrics) : History :=
  snaps.foldl (processSnapshot metrics) ⟨[], [], [], [], []⟩

/-- The `main` entry point of constructor.py (lines 18-70) restricted to
its computational content: a negative threshold is rejected with a
configuration error (`parser.error`, lines 44-46) before the file is read,
otherwise the rows are sorted by timestamp (line 63, Python's stable sort)
and the `Constructor` is built. -/
inductive ConfigError : Type
  | invalidThreshold : ConfigError
deriving DecidableEq, Repr

/-- Stable insertion by timestamp: a row is placed before the first row of
strictly larger timestamp, keeping equal timestamps in original order. -/
def insertRowSorted (r : Row) : List Row → List Row
  | [] => [r]
  | y :: ys => if y.time ≤ r.time then y :: insertRowSorted r ys else r :: y :: ys

/-- Python's stable `data.sort(key=lambda x: x[0])` (constructor.py line 63). -/
def sortRows (data : List Row) : List Row :=
  data.foldl (fun acc r => insertRowSorted r acc) []

/-- The computational content of `main` (constructor.py lines 18-70). -/
def mainConstruct (data : List Row) (threshold : ℚ) : Except ConfigError (Option ConState) :=
  if threshold < 0 then Except.error ConfigError.invalidThreshold
  else Except.ok (constructorInit (sortRows data) threshold)

/-- Sum of all duration counts stored for one node in a node-metric
duration table. -/
def histSumNode (d : NodeHist) (x : String) : Nat :=
  match d.lookup x with
  | none => 0
  | some h => (h.map Prod.snd).sum

/-- The set of member ids of an emitted triangle triple. -/
def triSet {V : Type} [DecidableEq V] (t : V × V × V) : Finset V :=
  {t.1, t.2.1, t.2.2}

/-- The concrete scenario of the specification (§8 item 7): three points on
a line at timestamp 0, threshold 15. -/
def rows4 : List Row := [⟨0, 0, 0, "A"⟩, ⟨0, 10, 0, "B"⟩, ⟨0, 20, 0, "C"⟩]

/-- All five metrics requested. -/
def metricsAll : Metrics := ⟨true, true, true, true, true⟩

/-- Only the degree metric requested. -/
def metricsDegree : Metrics := ⟨true, false, false, false, false⟩

/-- Components and connectedness both requested. -/
def metricsCompConn : Metrics := ⟨false, false, false, true, true⟩

/-- Only connectedness requested. -/
def metricsConnOnly : Metrics := ⟨false, false, false, false, true⟩

/-- The snapshot sequence the concrete scenario's constructor run hands to
the aggregator. -/
def snaps4 : List Snapshot :=
  match constructorInit rows4 15 with
  | some st => st.time_networks.map Prod.snd
  | none => []

/-- A one-snapshot input with two connected nodes `A`, `B`. -/
def snapAB : Snapshot := ⟨[⟨0, 0, "A"⟩, ⟨1, 0, "B"⟩], [⟨"A", "B", "A_B"⟩]⟩

/-- A snapshot whose node list is empty but whose edge list mentions `A`
and `B`: networkx adds both endpoints to the graph. -/
def snapEdgeOnly : Snapshot := ⟨[], [⟨"A", "B", "A_B"⟩]⟩

/-- The complete-graph adjacency on the vertex list `[0, 1, 2, 3]`. -/
def k4adj (i j : Nat) : Bool := decide (i ≠ j)

/-- Bridging lemma: the executable comparison `withinThreshold` agrees with
the source's `math.sqrt(dx² + dy²) <= threshold` test, read over the reals. -/
theorem withinThreshold_iff_sqrt (x t : ℚ) (h : 0 ≤ x) :
    Real.sqrt x ≤ (t : ℝ) ↔ withinThreshold x t = true := by
  constructor
  · intro hle
    have ht : (0:ℝ) ≤ t := le_trans (Real.sqrt_nonneg _) hle
    have hx : (0:ℝ) ≤ (x:ℝ) := by exact_mod_cast h
    have h2 : (x:ℝ) ≤ (t:ℝ)^2 := by
      calc (x:ℝ) = Real.sqrt x ^ 2 := by rw [Real.sq_sqrt hx]
        _ ≤ (t:ℝ)^2 := by
          apply pow_le_pow_left₀ (Real.sqrt_nonneg _) hle
    simp only [withinThreshold, Bool.and_eq_true, decide_eq_true_eq]
    constructor
    · exact_mod_cast ht
    · exact_mod_cast h2
  · intro hw
    simp only [withinThreshold, Bool.and_eq_true, decide_eq_true_eq] at hw
    obtain ⟨ht, h2⟩ := hw
    have ht' : (0:ℝ) ≤ (t:ℝ) := by exact_mod_cast ht
    have h2' : (x:ℝ) ≤ (t:ℝ)^2 := by exact_mod_cast h2
    have hs : Real.sqrt (x:ℝ) ≤ Real.sqrt ((t:ℝ)^2) := Real.sqrt_le_sqrt h2'
    rwa [Real.sqrt_sq ht'] at hs

/-- Evaluation helper: the proximity test on the scenario pair `A`-`B`
(distance 10, threshold 15). -/
theorem withinAB : withinThreshold (distance_sq ⟨0, 0, "A"⟩ ⟨10, 0, "B"⟩) 15 = true := by
  simp only [withinThreshold, distance_sq, Bool.and_eq_true, decide_eq_true_eq]
  norm_num

/-- Evaluation helper: the proximity test on the scenario pair `A`-`C`
(distance 20, threshold 15). -/
theorem withinAC : withinThreshold (distance_sq ⟨0, 0, "A"⟩ ⟨20, 0, "C"⟩) 15 = false := by
  simp only [withinThreshold, distance_sq]
  norm_num

/-- Evaluation helper: the proximity test on the scenario pair `B`-`C`
(distance 10, threshold 15). -/
theorem withinBC : withinThreshold (distance_sq ⟨10, 0, "B"⟩ ⟨20, 0, "C"⟩) 15 = true := by
  simp only [withinThreshold, distance_sq, Bool.and_eq_true, decide_eq_true_eq]
  norm_num

/-- Evaluation helper: the proximity network of the scenario's single
timestamp group is exactly `A_B`, `B_C`. -/
theorem prox_rows4 :
    get_proximity_network 15 [⟨0, 0, "A"⟩, ⟨10, 0, "B"⟩, ⟨20, 0, "C"⟩]
      = [⟨"A", "B", "A_B"⟩, ⟨"B", "C", "B_C"⟩] := by
  simp only [get_proximity_network, List.filterMap_cons, List.filterMap_nil,
    withinAB, withinAC, withinBC, if_true, if_false]
  decide

/-- Evaluation helper: the constructor's full output on the scenario input. -/
theorem constructorInit_rows4 :
    constructorInit rows4 15 =
      some ⟨[("A", ⟨0, 0⟩), ("B", ⟨0, 0⟩), ("C", ⟨0, 0⟩)],
        [("A_B", ⟨0, 0, "A", "B"⟩), ("B_C", ⟨0, 0, "B", "C"⟩)],
        [(0, ⟨[⟨0, 0, "A"⟩, ⟨10, 0, "B"⟩, ⟨20, 0, "C"⟩],
          [⟨"A", "B", "A_B"⟩, ⟨"B", "C", "B_C"⟩]⟩)]⟩ := by
  have hstep : constructorInit rows4 15 =
      some (finalFlushGroup 15 (rows4.foldl (stepRow 15) ⟨0, [], ⟨[], [], []⟩⟩).st
        ((rows4.foldl (stepRow 15) ⟨0, [], ⟨[], [], []⟩⟩).time,
         (rows4.foldl (stepRow 15) ⟨0, [], ⟨[], [], []⟩⟩).active)) := rfl
  have hfold : rows4.foldl (stepRow 15) ⟨0, [], ⟨[], [], []⟩⟩
      = ⟨0, [⟨0, 0, "A"⟩, ⟨10, 0, "B"⟩, ⟨20, 0, "C"⟩], ⟨[], [], []⟩⟩ := by decide
  rw [hstep, hfold]
  simp only [finalFlushGroup, prox_rows4]
  decide

/-- Evaluation helper: the snapshot sequence the scenario's constructor
run produces. -/
theorem snaps4_eq :
    snaps4 = [⟨[⟨0, 0, "A"⟩, ⟨10, 0, "B"⟩, ⟨20, 0, "C"⟩],
      [⟨"A", "B", "A_B"⟩, ⟨"B", "C", "B_C"⟩]⟩] := by
  simp only [snaps4, constructorInit_rows4]
  decide

/-- C1.  The claim fails on the code: `nx.connected_components(G)` is a
generator, and when the `components` metric is also requested its loop
exhausts the generator before the `connectedness` loop runs, so with both
metrics requested no connectedness value is recorded at all.  On the
snapshot with nodes `A`, `B` joined by one edge: with both metrics the
connectedness table stays empty (while the components table records
`A_B`), whereas with connectedness alone both nodes duly record the value
`2 − 1 = 1` once. -/
theorem C1_connectedness_generator_bug :
    (naiveNodeImportance [snapAB] metricsCompConn).connectedness = []
    ∧ (naiveNodeImportance [snapAB] metricsCompConn).components = [("A_B", 1)]
    ∧ (naiveNodeImportance [snapAB] metricsConnOnly).connectedness.lookup "A"
        = some [(1, 1)]
    ∧ (naiveNodeImportance [snapAB] metricsConnOnly).connectedness.lookup "B"
        = some [(1, 1)] := by
  refine ⟨rfl, rfl, rfl, rfl⟩

/-- C4.  Actual behaviour of the code on the specification's concrete
scenario (three collinear points at timestamp 0, threshold 15, all metrics
requested): the constructed edges are exactly `A_B` and `B_C`, the degree
history is `A→{1:1}, B→{2:1}, C→{1:1}`, the triangles history is empty and
the single component `A_B_C` has count 1 — but, contrary to the claim, the
connectedness history is empty (the components loop exhausted the
`nx.connected_components` generator before the connectedness loop ran). -/
theorem C4_concrete_scenario_actual :
    (constructorInit rows4 15).isSome = true
    ∧ snaps4 = [⟨[⟨0, 0, "A"⟩, ⟨10, 0, "B"⟩, ⟨20, 0, "C"⟩],
        [⟨"A", "B", "A_B"⟩, ⟨"B", "C", "B_C"⟩]⟩]
    ∧ (naiveNodeImportance snaps4 metricsAll).degree
        = [("A", [(1, 1)]), ("B", [(2, 1)]), ("C", [(1, 1)])]
    ∧ (naiveNodeImportance snaps4 metricsAll).triangles = []
    ∧ (naiveNodeImportance snaps4 metricsAll).components = [("A_B_C", 1)]
    ∧ (naiveNodeImportance snaps4 metricsAll).connectedness = [] := by
  rw [constructorInit_rows4, snaps4_eq]
  refine ⟨rfl, rfl, by decide, by decide, by decide, by decide⟩

/-- C5 counterexample.  Two distinct points carrying the same id within the
threshold produce the edge `A_A`, whose `from` is not lexicographically
smaller than its `to`: the claim's "`from < to` always" fails. -/
theorem C5_from_lt_to_counterexample :
    get_proximity_network 1 [⟨0, 0, "A"⟩, ⟨0, 0, "A"⟩] = [⟨"A", "A", "A_A"⟩]
    ∧ strLt (Edge.mk "A" "A" "A_A").from_ (Edge.mk "A" "A" "A_A").to_ = false := by
  have h00 : withinThreshold (distance_sq ⟨0, 0, "A"⟩ ⟨0, 0, "A"⟩) 1 = true := by
    simp only [withinThreshold, distance_sq, Bool.and_eq_true, decide_eq_true_eq]
    norm_num
  refine ⟨?_, by decide⟩
  simp only [get_proximity_network, List.filterMap_cons, List.filterMap_nil, h00, if_true]
  decide

/-- C8.  A negative threshold is rejected by `main` with a configuration
error before any row is processed: the result carries no constructor state
at all. -/
theorem C8_negative_threshold (data : List Row) (t : ℚ) (h : t < 0) :
    mainConstruct data t = Except.error ConfigError.invalidThreshold := by
  simp [mainConstruct, if_pos h]

/-- C8 witness. -/
theorem C8_negative_threshold_witness :
    mainConstruct [⟨0, 0, 0, "A"⟩] (-1) = Except.error ConfigError.invalidThreshold :=
  C8_negative_threshold [⟨0, 0, 0, "A"⟩] (-1) (by norm_num)

/-- C9.  `Constructor.__init__` reads `data[0][0]` unconditionally: on an
empty input sequence it raises an `IndexError` (modelled `none`) instead of
completing with empty tables, and it completes normally exactly when the
input has at least one row. -/
theorem C9_empty_input :
    (∀ t : ℚ, constructorInit [] t = none)
    ∧ (∀ (data : List Row) (t : ℚ), data ≠ [] → (constructorInit data t).isSome = true) := by
  constructor
  · intro t; rfl
  · intro data t h
    match data with
    | [] => exact absurd rfl h
    | r :: rest => rfl

/-- C9 witness. -/
theorem C9_empty_input_witness :
    (constructorInit [⟨0, 0, 0, "A"⟩] 1).isSome = true :=
  C9_empty_input.2 [⟨0, 0, 0, "A"⟩] 1 (by decide)

/-- C10 counterexample.  A snapshot whose node list is empty but whose edge
list mentions `A` still records a degree for `A` (networkx adds edge
endpoints to the graph), so the histogram total for `A` is 1 while the
number of snapshots whose node list contains `A` is 0. -/
theorem C10_degree_count_counterexample :
    histSumNode (naiveNodeImportance [snapEdgeOnly] metricsDegree).degree "A" = 1
    ∧ ([snapEdgeOnly].countP (fun s => decide ("A" ∈ s.nodes.map PointRec.id))) = 0
    ∧ ¬ (histSumNode (naiveNodeImportance [snapEdgeOnly] metricsDegree).degree "A"
          = [snapEdgeOnly].countP (fun s => decide ("A" ∈ s.nodes.map PointRec.id))) := by
  refine ⟨rfl, rfl, by decide⟩

/-- Totality of the code-point comparison. -/
theorem charListLe_total : ∀ as bs : List Char, charListLe as bs = true ∨ charListLe bs as = true := by
  intro as
  induction as with
  | nil => intro bs; exact Or.inl rfl
  | cons a as ih =>
    intro bs
    cases bs with
    | nil => exact Or.inr rfl
    | cons b bs =>
      rcases Nat.lt_trichotomy a.toNat b.toNat with h | h | h
      · left; unfold charListLe; rw [if_pos h]
      · have h1 : ¬ a.toNat < b.toNat := by omega
        have h2 : ¬ b.toNat < a.toNat := by omega
        unfold charListLe
        rw [if_neg h1, if_neg h2, if_neg h2, if_neg h1]
        exact ih bs
      · right; unfold charListLe; rw [if_pos h]

/-- Antisymmetry of the code-point comparison. -/
theorem charListLe_antisymm :
    ∀ as bs : List Char, charListLe as bs = true → charListLe bs as = true → as = bs := by
  intro as
  induction as with
  | nil =>
    intro bs h1 h2
    cases bs with
    | nil => rfl
    | cons b bs => exact absurd h2 (by unfold charListLe; simp)
  | cons a as ih =>
    intro bs h1 h2
    cases bs with
    | nil => exact absurd h1 (by unfold charListLe; simp)
    | cons b bs =>
      rcases Nat.lt_trichotomy a.toNat b.toNat with h | h | h
      · exfalso
        unfold charListLe at h2
        rw [if_neg (by omega), if_pos h] at h2
        cases h2
      · have hab : a = b := Char.ext (UInt32.ext h)
        subst hab
        unfold charListLe at h1 h2
        rw [if_neg (by omega), if_neg (by omega)] at h1 h2
        rw [ih bs h1 h2]
      · exfalso
        unfold charListLe at h1
        rw [if_neg (by omega), if_pos h] at h1
        cases h1

/-- Totality of Python string `≤`. -/
theorem strLe_total (a b : String) : strLe a b = true ∨ strLe b a = true :=
  charListLe_total a.data b.data

/-- Antisymmetry of Python string `≤`. -/
theorem strLe_antisymm (a b : String) (h1 : strLe a b = true) (h2 : strLe b a = true) :
    a = b := by
  have h := charListLe_antisymm a.data b.data h1 h2
  cases a with
  | mk da =>
    cases b with
    | mk db => exact congrArg String.mk h

/-- `min` on id strings is symmetric. -/
theorem strMin_comm (a b : String) : strMin a b = strMin b a := by
  unfold strMin
  by_cases h1 : strLe a b = true <;> by_cases h2 : strLe b a = true
  · rw [strLe_antisymm a b h1 h2]
  · rw [Bool.not_eq_true] at h2; simp [h1, h2]
  · rw [Bool.not_eq_true] at h1; simp [h1, h2]
  · rcases strLe_total a b with h | h
    · exact absurd h h1
    · exact absurd h h2

/-- `max` on id strings is symmetric. -/
theorem strMax_comm (a b : String) : strMax a b = strMax b a := by
  unfold strMax
  by_cases h1 : strLe a b = true <;> by_cases h2 : strLe b a = true
  · rw [strLe_antisymm a b h1 h2]
  · rw [Bool.not_eq_true] at h2; simp [h1, h2]
  · rw [Bool.not_eq_true] at h1; simp [h1, h2]
  · rcases strLe_total a b with h | h
    · exact absurd h h1
    · exact absurd h h2

/-- The ordered pair is ordered: `min ≤ max`. -/
theorem strLe_strMin_strMax (a b : String) : strLe (strMin a b) (strMax a b) = true := by
  unfold strMin strMax
  by_cases h : strLe a b = true
  · simp [h]
  · rw [Bool.not_eq_true] at h
    simp only [h, Bool.false_eq_true, if_false]
    rcases strLe_total a b with h' | h'
    · rw [h] at h'; cases h'
    · exact h'

/-- For distinct ids the ordered pair is strictly ordered. -/
theorem strMin_ne_strMax (a b : String) (h : a ≠ b) : strMin a b ≠ strMax a b := by
  unfold strMin strMax
  by_cases hle : strLe a b = true
  · simp only [hle, if_true]; exact h
  · rw [Bool.not_eq_true] at hle
    simp only [hle, Bool.false_eq_true, if_false]
    exact Ne.symm h

/-- The produced edge does not depend on the order of the two points. -/
theorem mkEdge_comm (p q : PointRec) : mkEdge p q = mkEdge q p := by
  unfold mkEdge
  rw [strMin_comm q.id p.id, strMax_comm q.id p.id]

/-- Every edge of the proximity network comes from some pair of group
members within the threshold. -/
theorem mem_get_proximity_network {t : ℚ} :
    ∀ {nodes : List PointRec} {e : Edge}, e ∈ get_proximity_network t nodes →
      ∃ p q, p ∈ nodes ∧ q ∈ nodes ∧ withinThreshold (distance_sq p q) t = true
        ∧ e = mkEdge p q := by
  intro nodes
  induction nodes with
  | nil => intro e h; cases h
  | cons p rest ih =>
    intro e h
    rw [get_proximity_network] at h
    rcases List.mem_append.mp h with h | h
    · rcases List.mem_filterMap.mp h with ⟨q, hq, hfq⟩
      by_cases hw : withinThreshold (distance_sq p q) t = true
      · rw [if_pos hw] at hfq
        exact ⟨p, q, List.mem_cons_self p rest, List.mem_cons_of_mem p hq, hw,
          (Option.some.inj hfq).symm⟩
      · rw [if_neg hw] at hfq; cases hfq
    · obtain ⟨p', q', hp', hq', hw, he⟩ := ih h
      exact ⟨p', q', List.mem_cons_of_mem p hp', List.mem_cons_of_mem p hq', hw, he⟩

/-- C5 amended.  For every pair of points within the threshold the produced
edge has `from = min(id, id)`, `to = max(id, id)` lexicographically and edge
id `from ++ "_" ++ to`, independently of the order of the two points; every
produced edge satisfies `from ≤ to`, with `from < to` whenever the two ids
are distinct (equal ids — possible when two rows share an id — give
`from = to`, the minimal correction to the claim's "`from < to` always"). -/
theorem C5_edge_ordering_amended :
    (∀ p q : PointRec,
      mkEdge p q = mkEdge q p
      ∧ (mkEdge p q).from_ = strMin p.id q.id
      ∧ (mkEdge p q).to_ = strMax p.id q.id
      ∧ (mkEdge p q).id = (mkEdge p q).from_ ++ "_" ++ (mkEdge p q).to_
      ∧ strLe (mkEdge p q).from_ (mkEdge p q).to_ = true
      ∧ (p.id ≠ q.id → strLt (mkEdge p q).from_ (mkEdge p q).to_ = true))
    ∧ (∀ (t : ℚ) (nodes : List PointRec) (e : Edge), e ∈ get_proximity_network t nodes →
        strLe e.from_ e.to_ = true ∧ e.id = e.from_ ++ "_" ++ e.to_) := by
  constructor
  · intro p q
    refine ⟨mkEdge_comm p q, rfl, rfl, rfl, strLe_strMin_strMax p.id q.id, ?_⟩
    intro hne
    have h1 : (mkEdge p q).from_ = strMin p.id q.id := rfl
    have h2 : (mkEdge p q).to_ = strMax p.id q.id := rfl
    unfold strLt
    rw [h1, h2, strLe_strMin_strMax p.id q.id]
    have hne2 := strMin_ne_strMax p.id q.id hne
    simp [hne2]
  · intro t nodes e he
    obtain ⟨p, q, _, _, _, he⟩ := mem_get_proximity_network he
    subst he
    exact ⟨strLe_strMin_strMax p.id q.id, rfl⟩

/-- C5 amended, witness: the pair `B`, `A` (given in reverse order) yields
the strictly ordered edge `A_B`. -/
theorem C5_edge_ordering_amended_witness :
    strLt (mkEdge ⟨0, 0, "B"⟩ ⟨0, 0, "A"⟩).from_ (mkEdge ⟨0, 0, "B"⟩ ⟨0, 0, "A"⟩).to_ = true :=
  (C5_edge_ordering_amended.1 ⟨0, 0, "B"⟩ ⟨0, 0, "A"⟩).2.2.2.2.2 (by decide)

/-- Squared distance is non-negative. -/
theorem distance_sq_nonneg (p q : PointRec) : 0 ≤ distance_sq p q :=
  add_nonneg (sq_nonneg _) (sq_nonneg _)

/-- Squared distance is symmetric. -/
theorem distance_sq_comm (p q : PointRec) : distance_sq p q = distance_sq q p := by
  unfold distance_sq; ring

/-- Every index pair within the threshold contributes its edge to the
proximity network. -/
theorem prox_complete (t : ℚ) :
    ∀ (nodes : List PointRec) (i j : ℕ) (hij : i < j) (hj : j < nodes.length),
      withinThreshold
        (distance_sq (nodes.get ⟨i, by omega⟩) (nodes.get ⟨j, hj⟩)) t = true →
      mkEdge (nodes.get ⟨i, by omega⟩) (nodes.get ⟨j, hj⟩) ∈ get_proximity_network t nodes := by
  intro nodes
  induction nodes with
  | nil => intro i j hij hj h; simp at hj
  | cons p rest ih =>
    intro i j hij hj h
    match i, j, hij, hj with
    | 0, j'+1, hij, hj =>
      have hj' : j' < rest.length := by simpa using hj
      simp only [List.get_cons_zero, List.get_cons_succ] at h ⊢
      rw [get_proximity_network]
      apply List.mem_append_left
      apply List.mem_filterMap.mpr
      refine ⟨rest.get ⟨j', hj'⟩, List.get_mem rest j' hj', ?_⟩
      have h' : withinThreshold (distance_sq p (rest.get ⟨j', hj'⟩)) t = true := h
      show (if withinThreshold (distance_sq p (rest.get ⟨j', hj'⟩)) t = true
          then some (mkEdge p (rest.get ⟨j', hj'⟩)) else none)
        = some (mkEdge p (rest.get ⟨j', hj'⟩))
      rw [if_pos h']
    | i'+1, j'+1, hij, hj =>
      have hj' : j' < rest.length := by simpa using hj
      simp only [List.get_cons_succ] at h ⊢
      rw [get_proximity_network]
      apply List.mem_append_right
      exact ih i' j' (by omega) hj' h

/-- Either the first id is the minimum and the second the maximum, or the
other way round. -/
theorem strMinMax_cases (a b : String) :
    (strMin a b = a ∧ strMax a b = b) ∨ (strMin a b = b ∧ strMax a b = a) := by
  unfold strMin strMax
  by_cases h : strLe a b = true
  · left; rw [if_pos h, if_pos h]; exact ⟨rfl, rfl⟩
  · right; rw [if_neg h, if_neg h]; exact ⟨rfl, rfl⟩

/-- The ordered pair `(min, max)` determines the unordered id pair. -/
theorem pair_eq_of_minmax_eq {a b c d : String}
    (hmin : strMin a b = strMin c d) (hmax : strMax a b = strMax c d) :
    (a = c ∧ b = d) ∨ (a = d ∧ b = c) := by
  rcases strMinMax_cases a b with ⟨ha1, ha2⟩ | ⟨ha1, ha2⟩ <;>
    rcases strMinMax_cases c d with ⟨hb1, hb2⟩ | ⟨hb1, hb2⟩
  · exact Or.inl ⟨by rw [← ha1, hmin, hb1], by rw [← ha2, hmax, hb2]⟩
  · exact Or.inr ⟨by rw [← ha1, hmin, hb1], by rw [← ha2, hmax, hb2]⟩
  · exact Or.inr ⟨by rw [← ha2, hmax, hb2], by rw [← ha1, hmin, hb1]⟩
  · exact Or.inl ⟨by rw [← ha2, hmax, hb2], by rw [← ha1, hmin, hb1]⟩

/-- C6.  In a group with distinct ids, the proximity network contains an
edge for the pair at positions `i < j` exactly when the pair's Euclidean
distance (the real square root the source computes) is at most the
threshold — an inclusive boundary: at distance exactly `threshold` the
edge exists, beyond it does not. -/
theorem C6_threshold_boundary (nodes : List PointRec) (t : ℚ) (i j : ℕ)
    (hij : i < j) (hj : j < nodes.length)
    (hids : (nodes.map PointRec.id).Nodup) :
    (∃ e ∈ get_proximity_network t nodes,
        e.from_ = strMin (nodes.get ⟨i, by omega⟩).id (nodes.get ⟨j, hj⟩).id
        ∧ e.to_ = strMax (nodes.get ⟨i, by omega⟩).id (nodes.get ⟨j, hj⟩).id)
      ↔ Real.sqrt (distance_sq (nodes.get ⟨i, by omega⟩) (nodes.get ⟨j, hj⟩)) ≤ (t : ℝ) := by
  have hi : i < nodes.length := by omega
  constructor
  · rintro ⟨e, he, hfrom, hto⟩
    obtain ⟨p, q, hp, hq, hw, rfl⟩ := mem_get_proximity_network he
    have hmin : strMin p.id q.id = strMin (nodes.get ⟨i, hi⟩).id (nodes.get ⟨j, hj⟩).id := hfrom
    have hmax : strMax p.id q.id = strMax (nodes.get ⟨i, hi⟩).id (nodes.get ⟨j, hj⟩).id := hto
    have hiMem : nodes.get ⟨i, hi⟩ ∈ nodes := List.get_mem nodes i hi
    have hjMem : nodes.get ⟨j, hj⟩ ∈ nodes := List.get_mem nodes j hj
    have hinj := List.inj_on_of_nodup_map hids
    rw [withinThreshold_iff_sqrt _ _ (distance_sq_nonneg _ _)]
    rcases pair_eq_of_minmax_eq hmin hmax with ⟨h1, h2⟩ | ⟨h1, h2⟩
    · have hpi : p = nodes.get ⟨i, hi⟩ := hinj hp hiMem h1
      have hqj : q = nodes.get ⟨j, hj⟩ := hinj hq hjMem h2
      rw [hpi, hqj] at hw
      exact hw
    · have hpj : p = nodes.get ⟨j, hj⟩ := hinj hp hjMem h1
      have hqi : q = nodes.get ⟨i, hi⟩ := hinj hq hiMem h2
      rw [hpj, hqi, distance_sq_comm] at hw
      exact hw
  · intro hle
    have hw : withinThreshold (distance_sq (nodes.get ⟨i, hi⟩) (nodes.get ⟨j, hj⟩)) t = true :=
      (withinThreshold_iff_sqrt _ _ (distance_sq_nonneg _ _)).mp hle
    exact ⟨mkEdge (nodes.get ⟨i, hi⟩) (nodes.get ⟨j, hj⟩),
      prox_complete t nodes i j hij hj hw, rfl, rfl⟩

/-- C6 witness: the points `(0,0)` and `(3,4)` are at distance exactly 5;
with threshold 5 the edge is produced (inclusive boundary). -/
theorem C6_threshold_boundary_witness :
    ∃ e ∈ get_proximity_network 5 [⟨0, 0, "P"⟩, ⟨3, 4, "Q"⟩],
      e.from_ = strMin "P" "Q" ∧ e.to_ = strMax "P" "Q" := by
  have h := C6_threshold_boundary [⟨0, 0, "P"⟩, ⟨3, 4, "Q"⟩] 5 0 1
    (by decide) (by decide) (by decide)
  apply h.mpr
  have h25 : distance_sq (⟨0, 0, "P"⟩ : PointRec) ⟨3, 4, "Q"⟩ = 25 := by
    unfold distance_sq; norm_num
  show Real.sqrt (distance_sq (⟨0, 0, "P"⟩ : PointRec) ⟨3, 4, "Q"⟩) ≤ ((5 : ℚ) : ℝ)
  rw [h25, show ((25 : ℚ) : ℝ) = 5 ^ 2 by norm_num,
    Real.sqrt_sq (by norm_num : (0 : ℝ) ≤ 5)]
  norm_num

/-- A node-dict update introduces no key other than the updated id. -/
theorem updateNode1_keys_sub (t : Int) (n : PointRec) :
    ∀ (d : List (String × NodeRec)) (x : String),
      x ∈ (updateNode1 t n d).map Prod.fst → x ∈ d.map Prod.fst ∨ x = n.id := by
  intro d
  induction d with
  | nil =>
    intro x hx
    simp [updateNode1] at hx
    exact Or.inr hx
  | cons p rest ih =>
    intro x hx
    rw [updateNode1] at hx
    by_cases hp : p.1 = n.id
    · rw [if_pos hp] at hx
      simp only [List.map_cons, List.mem_cons] at hx ⊢
      exact Or.inl hx
    · rw [if_neg hp] at hx
      simp only [List.map_cons, List.mem_cons] at hx ⊢
      rcases hx with hx | hx
      · exact Or.inl (Or.inl hx)
      · rcases ih x hx with h | h
        · exact Or.inl (Or.inr h)
        · exact Or.inr h

/-- A node-dict update keeps the keys distinct. -/
theorem updateNode1_keys_nodup (t : Int) (n : PointRec) :
    ∀ d : List (String × NodeRec),
      (d.map Prod.fst).Nodup → ((updateNode1 t n d).map Prod.fst).Nodup := by
  intro d
  induction d with
  | nil => intro _; simp [updateNode1]
  | cons p rest ih =>
    intro hd
    rw [List.map_cons, List.nodup_cons] at hd
    rw [updateNode1]
    by_cases hp : p.1 = n.id
    · rw [if_pos hp, List.map_cons, List.nodup_cons]
      exact hd
    · rw [if_neg hp, List.map_cons, List.nodup_cons]
      refine ⟨fun hmem => ?_, ih hd.2⟩
      rcases updateNode1_keys_sub t n rest p.1 hmem with h | h
      · exact hd.1 h
      · exact hp h

/-- A node-dict update with timestamp `t` preserves well-formed records
bounded by `t`. -/
theorem updateNode1_ok (t : Int) (n : PointRec) :
    ∀ d : List (String × NodeRec),
      (∀ kr ∈ d, kr.2.first ≤ kr.2.last ∧ kr.2.last ≤ t) →
      ∀ kr ∈ updateNode1 t n d, kr.2.first ≤ kr.2.last ∧ kr.2.last ≤ t := by
  intro d
  induction d with
  | nil =>
    intro _ kr hkr
    simp [updateNode1] at hkr
    subst hkr
    exact ⟨le_refl t, le_refl t⟩
  | cons p rest ih =>
    intro hd kr hkr
    rw [updateNode1] at hkr
    by_cases hp : p.1 = n.id
    · rw [if_pos hp] at hkr
      rcases List.mem_cons.mp hkr with h | h
      · subst h
        have hop := hd p (List.mem_cons_self p rest)
        exact ⟨le_trans hop.1 hop.2, le_refl t⟩
      · exact hd kr (List.mem_cons_of_mem p h)
    · rw [if_neg hp] at hkr
      rcases List.mem_cons.mp hkr with h | h
      · subst h
        exact hd kr (List.mem_cons_self kr rest)
      · exact ih (fun kr' hkr' => hd kr' (List.mem_cons_of_mem p hkr')) kr h

/-- A node-dict update with timestamp `t` keeps every `last` bounded by `t`. -/
theorem updateNode1_lastBound (t : Int) (n : PointRec) :
    ∀ d : List (String × NodeRec),
      (∀ kr ∈ d, kr.2.last ≤ t) →
      ∀ kr ∈ updateNode1 t n d, kr.2.last ≤ t := by
  intro d
  induction d with
  | nil =>
    intro _ kr hkr
    simp [updateNode1] at hkr
    subst hkr
    exact le_refl t
  | cons p rest ih =>
    intro hd kr hkr
    rw [updateNode1] at hkr
    by_cases hp : p.1 = n.id
    · rw [if_pos hp] at hkr
      rcases List.mem_cons.mp hkr with h | h
      · subst h; exact le_refl t
      · exact hd kr (List.mem_cons_of_mem p h)
    · rw [if_neg hp] at hkr
      rcases List.mem_cons.mp hkr with h | h
      · subst h; exact hd kr (List.mem_cons_self kr rest)
      · exact ih (fun kr' hkr' => hd kr' (List.mem_cons_of_mem p hkr')) kr h

/-- A node-dict update never decreases a stored record's `last`. -/
theorem updateNode1_lookup_mono (t : Int) (n : PointRec) :
    ∀ (d : List (String × NodeRec)) (x : String) (rc : NodeRec),
      (∀ kr ∈ d, kr.2.last ≤ t) → d.lookup x = some rc →
      ∃ rc', (updateNode1 t n d).lookup x = some rc' ∧ rc.last ≤ rc'.last := by
  intro d
  induction d with
  | nil => intro x rc _ hlk; cases hlk
  | cons p rest ih =>
    intro x rc hd hlk
    rw [updateNode1]
    obtain ⟨p1, p2⟩ := p
    by_cases hx : x = p1
    · have hxbeq : (x == p1) = true := beq_iff_eq.mpr hx
      have hrc : p2 = rc := by
        rw [List.lookup_cons] at hlk
        simpa [hxbeq] using hlk
      by_cases hp : p1 = n.id
      · rw [if_pos hp]
        refine ⟨{ p2 with last := t }, ?_, ?_⟩
        · rw [List.lookup_cons]
          simp [hxbeq]
        · rw [← hrc]
          exact hd (p1, p2) (List.mem_cons_self _ rest)
      · rw [if_neg hp]
        refine ⟨rc, ?_, le_refl _⟩
        rw [List.lookup_cons]
        simp [hxbeq, hrc]
    · have hlk' : rest.lookup x = some rc := by
        rw [List.lookup_cons] at hlk
        simpa [beq_false_of_ne hx] using hlk
      by_cases hp : p1 = n.id
      · rw [if_pos hp]
        refine ⟨rc, ?_, le_refl _⟩
        rw [List.lookup_cons]
        simpa [beq_false_of_ne hx] using hlk'
      · rw [if_neg hp]
        obtain ⟨rc', hlk2, hle⟩ :=
          ih x rc (fun kr hkr => hd kr (List.mem_cons_of_mem _ hkr)) hlk'
        refine ⟨rc', ?_, hle⟩
        rw [List.lookup_cons]
        simpa [beq_false_of_ne hx] using hlk2

/-- `update_nodes` keeps the keys distinct. -/
theorem update_nodes_keys_nodup (t : Int) :
    ∀ (ns : List PointRec) (d : List (String × NodeRec)),
      (d.map Prod.fst).Nodup → ((update_nodes t ns d).map Prod.fst).Nodup := by
  intro ns
  induction ns with
  | nil => intro d hd; simpa [update_nodes] using hd
  | cons n ns ih =>
    intro d hd
    simp only [update_nodes, List.foldl_cons] at ih ⊢
    exact ih (updateNode1 t n d) (updateNode1_keys_nodup t n d hd)

/-- `update_nodes` with timestamp `t` preserves well-formed records
bounded by `t`. -/
theorem update_nodes_ok (t : Int) :
    ∀ (ns : List PointRec) (d : List (String × NodeRec)),
      (∀ kr ∈ d, kr.2.first ≤ kr.2.last ∧ kr.2.last ≤ t) →
      ∀ kr ∈ update_nodes t ns d, kr.2.first ≤ kr.2.last ∧ kr.2.last ≤ t := by
  intro ns
  induction ns with
  | nil => intro d hd; simpa [update_nodes] using hd
  | cons n ns ih =>
    intro d hd
    simp only [update_nodes, List.foldl_cons] at ih ⊢
    exact ih (updateNode1 t n d) (updateNode1_ok t n d hd)

/-- `update_nodes` with timestamp `t` keeps every `last` bounded by `t`. -/
theorem update_nodes_lastBound (t : Int) :
    ∀ (ns : List PointRec) (d : List (String × NodeRec)),
      (∀ kr ∈ d, kr.2.last ≤ t) →
      ∀ kr ∈ update_nodes t ns d, kr.2.last ≤ t := by
  intro ns
  induction ns with
  | nil => intro d hd; simpa [update_nodes] using hd
  | cons n ns ih =>
    intro d hd
    simp only [update_nodes, List.foldl_cons] at ih ⊢
    exact ih (updateNode1 t n d) (updateNode1_lastBound t n d hd)

/-- `update_nodes` never decreases a stored record's `last`. -/
theorem update_nodes_lookup_mono (t : Int) :
    ∀ (ns : List PointRec) (d : List (String × NodeRec)) (x : String) (rc : NodeRec),
      (∀ kr ∈ d, kr.2.last ≤ t) → d.lookup x = some rc →
      ∃ rc', (update_nodes t ns d).lookup x = some rc' ∧ rc.last ≤ rc'.last := by
  intro ns
  induction ns with
  | nil =>
    intro d x rc _ hlk
    exact ⟨rc, by simpa [update_nodes] using hlk, le_refl _⟩
  | cons n ns ih =>
    intro d x rc hd hlk
    obtain ⟨rc1, hlk1, hle1⟩ := updateNode1_lookup_mono t n d x rc hd hlk
    obtain ⟨rc', hlk', hle'⟩ :=
      ih (updateNode1 t n d) x rc1 (updateNode1_lastBound t n d hd) hlk1
    refine ⟨rc', ?_, le_trans hle1 hle'⟩
    simpa [update_nodes, List.foldl_cons] using hlk'

/-- An edge-dict update introduces no key other than the updated edge id. -/
theorem updateEdge1_keys_sub (t : Int) (e : Edge) :
    ∀ (d : List (String × EdgeRec)) (x : String),
      x ∈ (updateEdge1 t e d).map Prod.fst → x ∈ d.map Prod.fst ∨ x = e.id := by
  intro d
  induction d with
  | nil =>
    intro x hx
    simp [updateEdge1] at hx
    exact Or.inr hx
  | cons p rest ih =>
    intro x hx
    rw [updateEdge1] at hx
    by_cases hp : p.1 = e.id
    · rw [if_pos hp] at hx
      simp only [List.map_cons, List.mem_cons] at hx ⊢
      exact Or.inl hx
    · rw [if_neg hp] at hx
      simp only [List.map_cons, List.mem_cons] at hx ⊢
      rcases hx with hx | hx
      · exact Or.inl (Or.inl hx)
      · rcases ih x hx with h | h
        · exact Or.inl (Or.inr h)
        · exact Or.inr h

/-- An edge-dict update keeps the keys distinct. -/
theorem updateEdge1_keys_nodup (t : Int) (e : Edge) :
    ∀ d : List (String × EdgeRec),
      (d.map Prod.fst).Nodup → ((updateEdge1 t e d).map Prod.fst).Nodup := by
  intro d
  induction d with
  | nil => intro _; simp [updateEdge1]
  | cons p rest ih =>
    intro hd
    rw [List.map_cons, List.nodup_cons] at hd
    rw [updateEdge1]
    by_cases hp : p.1 = e.id
    · rw [if_pos hp, List.map_cons, List.nodup_cons]
      exact hd
    · rw [if_neg hp, List.map_cons, List.nodup_cons]
      refine ⟨fun hmem => ?_, ih hd.2⟩
      rcases updateEdge1_keys_sub t e rest p.1 hmem with h | h
      · exact hd.1 h
      · exact hp h

/-- An edge-dict update with timestamp `t` preserves well-formed records
bounded by `t`. -/
theorem updateEdge1_ok (t : Int) (e : Edge) :
    ∀ d : List (String × EdgeRec),
      (∀ kr ∈ d, kr.2.first ≤ kr.2.last ∧ kr.2.last ≤ t) →
      ∀ kr ∈ updateEdge1 t e d, kr.2.first ≤ kr.2.last ∧ kr.2.last ≤ t := by
  intro d
  induction d with
  | nil =>
    intro _ kr hkr
    simp [updateEdge1] at hkr
    subst hkr
    exact ⟨le_refl t, le_refl t⟩
  | cons p rest ih =>
    intro hd kr hkr
    rw [updateEdge1] at hkr
    by_cases hp : p.1 = e.id
    · rw [if_pos hp] at hkr
      rcases List.mem_cons.mp hkr with h | h
      · subst h
        have hop := hd p (List.mem_cons_self p rest)
        exact ⟨le_trans hop.1 hop.2, le_refl t⟩
      · exact hd kr (List.mem_cons_of_mem p h)
    · rw [if_neg hp] at hkr
      rcases List.mem_cons.mp hkr with h | h
      · subst h
        exact hd kr (List.mem_cons_self kr rest)
      · exact ih (fun kr' hkr' => hd kr' (List.mem_cons_of_mem p hkr')) kr h

/-- An edge-dict update with timestamp `t` keeps every `last` bounded by `t`. -/
theorem updateEdge1_lastBound (t : Int) (e : Edge) :
    ∀ d : List (String × EdgeRec),
      (∀ kr ∈ d, kr.2.last ≤ t) →
      ∀ kr ∈ updateEdge1 t e d, kr.2.last ≤ t := by
  intro d
  induction d with
  | nil =>
    intro _ kr hkr
    simp [updateEdge1] at hkr
    subst hkr
    exact le_refl t
  | cons p rest ih =>
    intro hd kr hkr
    rw [updateEdge1] at hkr
    by_cases hp : p.1 = e.id
    · rw [if_pos hp] at hkr
      rcases List.mem_cons.mp hkr with h | h
      · subst h; exact le_refl t
      · exact hd kr (List.mem_cons_of_mem p h)
    · rw [if_neg hp] at hkr
      rcases List.mem_cons.mp hkr with h | h
      · subst h; exact hd kr (List.mem_cons_self kr rest)
      · exact ih (fun kr' hkr' => hd kr' (List.mem_cons_of_mem p hkr')) kr h

/-- An edge-dict update never decreases a stored record's `last`. -/
theorem updateEdge1_lookup_mono (t : Int) (e : Edge) :
    ∀ (d : List (String × EdgeRec)) (x : String) (rc : EdgeRec),
      (∀ kr ∈ d, kr.2.last ≤ t) → d.lookup x = some rc →
      ∃ rc', (updateEdge1 t e d).lookup x = some rc' ∧ rc.last ≤ rc'.last := by
  intro d
  induction d with
  | nil => intro x rc _ hlk; cases hlk
  | cons p rest ih =>
    intro x rc hd hlk
    rw [updateEdge1]
    obtain ⟨p1, p2⟩ := p
    by_cases hx : x = p1
    · have hxbeq : (x == p1) = true := beq_iff_eq.mpr hx
      have hrc : p2 = rc := by
        rw [List.lookup_cons] at hlk
        simpa [hxbeq] using hlk
      by_cases hp : p1 = e.id
      · rw [if_pos hp]
        refine ⟨{ p2 with last := t }, ?_, ?_⟩
        · rw [List.lookup_cons]
          simp [hxbeq]
        · rw [← hrc]
          exact hd (p1, p2) (List.mem_cons_self _ rest)
      · rw [if_neg hp]
        refine ⟨rc, ?_, le_refl _⟩
        rw [List.lookup_cons]
        simp [hxbeq, hrc]
    · have hlk' : rest.lookup x = some rc := by
        rw [List.lookup_cons] at hlk
        simpa [beq_false_of_ne hx] using hlk
      by_cases hp : p1 = e.id
      · rw [if_pos hp]
        refine ⟨rc, ?_, le_refl _⟩
        rw [List.lookup_cons]
        simpa [beq_false_of_ne hx] using hlk'
      · rw [if_neg hp]
        obtain ⟨rc', hlk2, hle⟩ :=
          ih x rc (fun kr hkr => hd kr (List.mem_cons_of_mem _ hkr)) hlk'
        refine ⟨rc', ?_, hle⟩
        rw [List.lookup_cons]
        simpa [beq_false_of_ne hx] using hlk2

/-- `update_edges` keeps the keys distinct. -/
theorem update_edges_keys_nodup (t : Int) :
    ∀ (es : List Edge) (d : List (String × EdgeRec)),
      (d.map Prod.fst).Nodup → ((update_edges t es d).map Prod.fst).Nodup := by
  intro es
  induction es with
  | nil => intro d hd; simpa [update_edges] using hd
  | cons e es ih =>
    intro d hd
    simp only [update_edges, List.foldl_cons] at ih ⊢
    exact ih (updateEdge1 t e d) (updateEdge1_keys_nodup t e d hd)

/-- `update_edges` with timestamp `t` preserves well-formed records
bounded by `t`. -/
theorem update_edges_ok (t : Int) :
    ∀ (es : List Edge) (d : List (String × EdgeRec)),
      (∀ kr ∈ d, kr.2.first ≤ kr.2.last ∧ kr.2.last ≤ t) →
      ∀ kr ∈ update_edges t es d, kr.2.first ≤ kr.2.last ∧ kr.2.last ≤ t := by
  intro es
  induction es with
  | nil => intro d hd; simpa [update_edges] using hd
  | cons e es ih =>
    intro d hd
    simp only [update_edges, List.foldl_cons] at ih ⊢
    exact ih (updateEdge1 t e d) (updateEdge1_ok t e d hd)

/-- `update_edges` with timestamp `t` keeps every `last` bounded by `t`. -/
theorem update_edges_lastBound (t : Int) :
    ∀ (es : List Edge) (d : List (String × EdgeRec)),
      (∀ kr ∈ d, kr.2.last ≤ t) →
      ∀ kr ∈ update_edges t es d, kr.2.last ≤ t := by
  intro es
  induction es with
  | nil => intro d hd; simpa [update_edges] using hd
  | cons e es ih =>
    intro d hd
    simp only [update_edges, List.foldl_cons] at ih ⊢
    exact ih (updateEdge1 t e d) (updateEdge1_lastBound t e d hd)

/-- `update_edges` never decreases a stored record's `last`. -/
theorem update_edges_lookup_mono (t : Int) :
    ∀ (es : List Edge) (d : List (String × EdgeRec)) (x : String) (rc : EdgeRec),
      (∀ kr ∈ d, kr.2.last ≤ t) → d.lookup x = some rc →
      ∃ rc', (update_edges t es d).lookup x = some rc' ∧ rc.last ≤ rc'.last := by
  intro es
  induction es with
  | nil =>
    intro d x rc _ hlk
    exact ⟨rc, by simpa [update_edges] using hlk, le_refl _⟩
  | cons e es ih =>
    intro d x rc hd hlk
    obtain ⟨rc1, hlk1, hle1⟩ := updateEdge1_lookup_mono t e d x rc hd hlk
    obtain ⟨rc', hlk', hle'⟩ :=
      ih (updateEdge1 t e d) x rc1 (updateEdge1_lastBound t e d hd) hlk1
    refine ⟨rc', ?_, le_trans hle1 hle'⟩
    simpa [update_edges, List.foldl_cons] using hlk'

/-- Invariant of the row loop: with time-sorted remaining rows, the
dictionaries keep distinct keys and well-formed records bounded by the
current group timestamp. -/
theorem fold_stepRow_inv (th : ℚ) :
    ∀ (rows : List Row) (s : LoopState),
      List.Pairwise (fun a b : Row => a.time ≤ b.time) rows →
      (∀ r ∈ rows, s.time ≤ r.time) →
      ((s.st.node_dict.map Prod.fst).Nodup ∧ (s.st.edge_dict.map Prod.fst).Nodup
        ∧ (∀ kr ∈ s.st.node_dict, kr.2.first ≤ kr.2.last ∧ kr.2.last ≤ s.time)
        ∧ (∀ kr ∈ s.st.edge_dict, kr.2.first ≤ kr.2.last ∧ kr.2.last ≤ s.time)) →
      (((rows.foldl (stepRow th) s).st.node_dict.map Prod.fst).Nodup
        ∧ ((rows.foldl (stepRow th) s).st.edge_dict.map Prod.fst).Nodup
        ∧ (∀ kr ∈ (rows.foldl (stepRow th) s).st.node_dict,
            kr.2.first ≤ kr.2.last ∧ kr.2.last ≤ (rows.foldl (stepRow th) s).time)
        ∧ (∀ kr ∈ (rows.foldl (stepRow th) s).st.edge_dict,
            kr.2.first ≤ kr.2.last ∧ kr.2.last ≤ (rows.foldl (stepRow th) s).time)) := by
  intro rows
  induction rows with
  | nil => intro s _ _ hinv; simpa using hinv
  | cons r rest ih =>
    intro s hsort hge hinv
    rw [List.pairwise_cons] at hsort
    rw [List.foldl_cons]
    by_cases ht : r.time ≠ s.time
    · have hst : s.time ≤ r.time := hge r (List.mem_cons_self r rest)
      have hstep : stepRow th s r =
          { time := r.time, active := [toPoint r],
            st := flushGroup th s.st (s.time, s.active) } := by
        rw [stepRow, if_pos ht]
      rw [hstep]
      apply ih
      · exact hsort.2
      · intro r' hr'; exact hsort.1 r' hr'
      · obtain ⟨h1, h2, h3, h4⟩ := hinv
        refine ⟨update_nodes_keys_nodup s.time s.active s.st.node_dict h1,
          update_edges_keys_nodup s.time _ s.st.edge_dict h2, ?_, ?_⟩
        · intro kr hkr
          have := update_nodes_ok s.time s.active s.st.node_dict h3 kr hkr
          exact ⟨this.1, le_trans this.2 hst⟩
        · intro kr hkr
          have := update_edges_ok s.time _ s.st.edge_dict h4 kr hkr
          exact ⟨this.1, le_trans this.2 hst⟩
    · have hstep : stepRow th s r = { s with active := s.active ++ [toPoint r] } := by
        rw [stepRow, if_neg ht]
      rw [hstep]
      apply ih
      · exact hsort.2
      · intro r' hr'
        have hrt : r.time = s.time := not_not.mp ht
        show s.time ≤ r'.time
        rw [← hrt]
        exact hsort.1 r' hr'
      · exact hinv

/-- C7.  After construction on a time-sorted input: both lifecycle tables
have exactly one record per distinct id (their key lists have no
duplicates) and every record satisfies `first ≤ last`; moreover a single
`update_nodes`/`update_edges` call at a timestamp no smaller than every
stored `last` never decreases any stored record's `last`. -/
theorem C7_lifecycle_monotonicity :
    (∀ (data : List Row) (th : ℚ) (st : ConState),
      List.Pairwise (fun a b : Row => a.time ≤ b.time) data →
      constructorInit data th = some st →
      (st.node_dict.map Prod.fst).Nodup ∧ (st.edge_dict.map Prod.fst).Nodup
        ∧ (∀ kr ∈ st.node_dict, kr.2.first ≤ kr.2.last)
        ∧ (∀ kr ∈ st.edge_dict, kr.2.first ≤ kr.2.last))
    ∧ (∀ (t : Int) (ns : List PointRec) (d : List (String × NodeRec)) (x : String)
        (rc : NodeRec), (∀ kr ∈ d, kr.2.last ≤ t) → d.lookup x = some rc →
        ∃ rc', (update_nodes t ns d).lookup x = some rc' ∧ rc.last ≤ rc'.last)
    ∧ (∀ (t : Int) (es : List Edge) (d : List (String × EdgeRec)) (x : String)
        (rc : EdgeRec), (∀ kr ∈ d, kr.2.last ≤ t) → d.lookup x = some rc →
        ∃ rc', (update_edges t es d).lookup x = some rc' ∧ rc.last ≤ rc'.last) := by
  refine ⟨?_, update_nodes_lookup_mono, update_edges_lookup_mono⟩
  intro data th st hsort hcon
  match data, hcon with
  | r0 :: rest, hcon =>
    have hcon' : finalFlushGroup th ((r0 :: rest).foldl (stepRow th) ⟨r0.time, [], ⟨[], [], []⟩⟩).st
        (((r0 :: rest).foldl (stepRow th) ⟨r0.time, [], ⟨[], [], []⟩⟩).time,
         ((r0 :: rest).foldl (stepRow th) ⟨r0.time, [], ⟨[], [], []⟩⟩).active) = st :=
      Option.some.inj hcon
    have hge : ∀ r ∈ r0 :: rest, (⟨r0.time, [], ⟨[], [], []⟩⟩ : LoopState).time ≤ r.time := by
      intro r hr
      rcases List.mem_cons.mp hr with h | h
      · rw [h]
      · exact (List.pairwise_cons.mp hsort).1 r h
    have hinv := fold_stepRow_inv th (r0 :: rest) ⟨r0.time, [], ⟨[], [], []⟩⟩ hsort hge
      (by refine ⟨List.nodup_nil, List.nodup_nil, ?_, ?_⟩ <;> intro kr hkr <;> cases hkr)
    obtain ⟨h1, h2, h3, h4⟩ := hinv
    rw [← hcon']
    set fin := (r0 :: rest).foldl (stepRow th) ⟨r0.time, [], ⟨[], [], []⟩⟩ with hfin
    rw [finalFlushGroup]
    by_cases hempty : (get_proximity_network th fin.active).isEmpty
    · rw [if_pos hempty]
      refine ⟨update_nodes_keys_nodup fin.time fin.active fin.st.node_dict h1,
        update_edges_keys_nodup fin.time _ fin.st.edge_dict h2, ?_, ?_⟩
      · intro kr hkr
        exact (update_nodes_ok fin.time fin.active fin.st.node_dict h3 kr hkr).1
      · intro kr hkr
        exact (update_edges_ok fin.time _ fin.st.edge_dict h4 kr hkr).1
    · rw [if_neg hempty]
      refine ⟨update_nodes_keys_nodup fin.time fin.active fin.st.node_dict h1,
        update_edges_keys_nodup fin.time _ fin.st.edge_dict h2, ?_, ?_⟩
      · intro kr hkr
        exact (update_nodes_ok fin.time fin.active fin.st.node_dict h3 kr hkr).1
      · intro kr hkr
        exact (update_edges_ok fin.time _ fin.st.edge_dict h4 kr hkr).1

/-- C7 witness: two rows for the id `A` at timestamps 0 and 1 yield the
single record `first = 0 ≤ last = 1`; a further update at timestamp 2
does not decrease `last`. -/
theorem C7_lifecycle_monotonicity_witness :
    ((∀ kr ∈ [("A", NodeRec.mk 0 1)], kr.2.first ≤ kr.2.last))
    ∧ (∃ rc', (update_nodes 2 [⟨5, 5, "A"⟩] [("A", NodeRec.mk 0 1)]).lookup "A" = some rc'
        ∧ (NodeRec.mk 0 1).last ≤ rc'.last) := by
  constructor
  · exact (C7_lifecycle_monotonicity.1 [⟨0, 0, 0, "A"⟩, ⟨1, 1, 0, "A"⟩] 5
      ⟨[("A", ⟨0, 1⟩)], [], [(0, ⟨[⟨0, 0, "A"⟩], []⟩)]⟩ (by decide) (by decide)).2.2.1
  · exact C7_lifecycle_monotonicity.2.1 2 [⟨5, 5, "A"⟩] [("A", ⟨0, 1⟩)] "A" ⟨0, 1⟩
      (by decide) (by decide)

/-- The timestamp-group list is never empty. -/
theorem groupsFrom_ne_nil : ∀ (rows : List Row) (t : Int) (acc : List PointRec),
    groupsFrom t acc rows ≠ [] := by
  intro rows
  induction rows with
  | nil => intro t acc h; cases h
  | cons r rest ih =>
    intro t acc
    rw [groupsFrom]
    by_cases ht : r.time ≠ t
    · rw [if_pos ht]; exact List.cons_ne_nil _ _
    · rw [if_neg ht]; exact ih t (acc ++ [toPoint r])

/-- The row loop followed by the final flush equals the group-level
description `buildGroups` on the remaining groups. -/
theorem foldl_stepRow_eq_buildGroups (th : ℚ) :
    ∀ (rows : List Row) (t : Int) (acc : List PointRec) (st : ConState),
      finalFlushGroup th ((rows.foldl (stepRow th) ⟨t, acc, st⟩).st)
        ((rows.foldl (stepRow th) ⟨t, acc, st⟩).time,
         (rows.foldl (stepRow th) ⟨t, acc, st⟩).active)
      = buildGroups th st (groupsFrom t acc rows) := by
  intro rows
  induction rows with
  | nil => intro t acc st; rfl
  | cons r rest ih =>
    intro t acc st
    rw [List.foldl_cons, groupsFrom]
    by_cases ht : r.time ≠ t
    · have hstep : stepRow th ⟨t, acc, st⟩ r =
          ⟨r.time, [toPoint r], flushGroup th st (t, acc)⟩ := by
        rw [stepRow, if_pos ht]
      rw [hstep, if_pos ht]
      obtain ⟨g', gs', hgs⟩ :=
        List.exists_cons_of_ne_nil (groupsFrom_ne_nil rest r.time [toPoint r])
      rw [hgs, buildGroups, ← hgs]
      exact ih r.time [toPoint r] (flushGroup th st (t, acc))
    · have hstep : stepRow th ⟨t, acc, st⟩ r = ⟨t, acc ++ [toPoint r], st⟩ := by
        rw [stepRow, if_neg ht]
      rw [hstep, if_neg ht]
      exact ih t (acc ++ [toPoint r]) st

/-- `Constructor.__init__` equals the group-level description on the
positional timestamp groups of the input. -/
theorem constructorInit_eq_buildGroups (th : ℚ) (r0 : Row) (rest : List Row) :
    constructorInit (r0 :: rest) th
      = some (buildGroups th ⟨[], [], []⟩ (groups (r0 :: rest))) := by
  have h0 : constructorInit (r0 :: rest) th = some (finalFlushGroup th
      (((r0 :: rest).foldl (stepRow th) ⟨r0.time, [], ⟨[], [], []⟩⟩).st)
      (((r0 :: rest).foldl (stepRow th) ⟨r0.time, [], ⟨[], [], []⟩⟩).time,
       ((r0 :: rest).foldl (stepRow th) ⟨r0.time, [], ⟨[], [], []⟩⟩).active)) := rfl
  rw [h0, List.foldl_cons]
  have hstep : stepRow th ⟨r0.time, [], ⟨[], [], []⟩⟩ r0
      = ⟨r0.time, [toPoint r0], ⟨[], [], []⟩⟩ := by
    rw [stepRow, if_neg (not_not_intro rfl)]
    rfl
  rw [hstep, groups]
  exact congrArg some (foldl_stepRow_eq_buildGroups th rest r0.time [toPoint r0] ⟨[], [], []⟩)

/-- The group-level run is: flush all non-final groups, then the final
flush. -/
theorem buildGroups_eq_foldl (th : ℚ) :
    ∀ (init : List (Int × List PointRec)) (gl : Int × List PointRec) (st : ConState),
      buildGroups th st (init ++ [gl])
        = finalFlushGroup th (init.foldl (flushGroup th) st) gl := by
  intro init
  induction init with
  | nil => intro gl st; rfl
  | cons g init ih =>
    intro gl st
    rw [List.cons_append]
    obtain ⟨g', gs', hgs⟩ :=
      List.exists_cons_of_ne_nil (show init ++ [gl] ≠ [] by simp)
    rw [hgs, buildGroups, ← hgs, List.foldl_cons]
    exact ih gl (flushGroup th st g)

/-- Flushing a list of groups appends exactly one snapshot per group, in
order, each with its full point group and computed edge list. -/
theorem foldl_flushGroup_time_networks (th : ℚ) :
    ∀ (gs : List (Int × List PointRec)) (st : ConState),
      (gs.foldl (flushGroup th) st).time_networks
        = st.time_networks
          ++ gs.map (fun g => (g.1, Snapshot.mk g.2 (get_proximity_network th g.2))) := by
  intro gs
  induction gs with
  | nil => intro st; simp
  | cons g gs ih =>
    intro st
    rw [List.foldl_cons, ih, List.map_cons]
    rw [flushGroup]
    simp [List.append_assoc]

/-- After a node-dict update, the updated id is present with `last = t`. -/
theorem updateNode1_lookup_set (t : Int) (n : PointRec) :
    ∀ d : List (String × NodeRec),
      ∃ rc, (updateNode1 t n d).lookup n.id = some rc ∧ rc.last = t := by
  intro d
  induction d with
  | nil =>
    refine ⟨⟨t, t⟩, ?_, rfl⟩
    rw [updateNode1, List.lookup_cons]
    simp
  | cons p rest ih =>
    rw [updateNode1]
    by_cases hp : p.1 = n.id
    · rw [if_pos hp]
      refine ⟨{ p.2 with last := t }, ?_, rfl⟩
      rw [List.lookup_cons]
      simp [beq_iff_eq, hp.symm]
    · rw [if_neg hp]
      obtain ⟨rc, hlk, hlast⟩ := ih
      refine ⟨rc, ?_, hlast⟩
      rw [List.lookup_cons]
      simpa [beq_false_of_ne (fun h => hp h.symm)] using hlk

/-- A node-dict update at timestamp `t` preserves `last = t` of any stored
record. -/
theorem updateNode1_lookup_keep (t : Int) (n : PointRec) :
    ∀ (d : List (String × NodeRec)) (x : String) (rc : NodeRec),
      d.lookup x = some rc → rc.last = t →
      ∃ rc', (updateNode1 t n d).lookup x = some rc' ∧ rc'.last = t := by
  intro d
  induction d with
  | nil => intro x rc hlk _; cases hlk
  | cons p rest ih =>
    intro x rc hlk hlast
    rw [updateNode1]
    obtain ⟨p1, p2⟩ := p
    by_cases hx : x = p1
    · have hxbeq : (x == p1) = true := beq_iff_eq.mpr hx
      have hrc : p2 = rc := by
        rw [List.lookup_cons] at hlk
        simpa [hxbeq] using hlk
      by_cases hp : p1 = n.id
      · rw [if_pos hp]
        refine ⟨{ p2 with last := t }, ?_, rfl⟩
        rw [List.lookup_cons]
        simp [hxbeq]
      · rw [if_neg hp]
        refine ⟨rc, ?_, hlast⟩
        rw [List.lookup_cons]
        simp [hxbeq, hrc]
    · have hlk' : rest.lookup x = some rc := by
        rw [List.lookup_cons] at hlk
        simpa [beq_false_of_ne hx] using hlk
      by_cases hp : p1 = n.id
      · rw [if_pos hp]
        refine ⟨rc, ?_, hlast⟩
        rw [List.lookup_cons]
        simpa [beq_false_of_ne hx] using hlk'
      · rw [if_neg hp]
        obtain ⟨rc', hlk2, hlast'⟩ := ih x rc hlk' hlast
        refine ⟨rc', ?_, hlast'⟩
        rw [List.lookup_cons]
        simpa [beq_false_of_ne hx] using hlk2

/-- `update_nodes` at timestamp `t` preserves `last = t` of any stored
record. -/
theorem update_nodes_lookup_keep (t : Int) :
    ∀ (ns : List PointRec) (d : List (String × NodeRec)) (x : String) (rc : NodeRec),
      d.lookup x = some rc → rc.last = t →
      ∃ rc', (update_nodes t ns d).lookup x = some rc' ∧ rc'.last = t := by
  intro ns
  induction ns with
  | nil => intro d x rc hlk hlast; exact ⟨rc, by simpa [update_nodes] using hlk, hlast⟩
  | cons n ns ih =>
    intro d x rc hlk hlast
    obtain ⟨rc1, hlk1, hlast1⟩ := updateNode1_lookup_keep t n d x rc hlk hlast
    obtain ⟨rc', hlk', hlast'⟩ := ih (updateNode1 t n d) x rc1 hlk1 hlast1
    exact ⟨rc', by simpa [update_nodes, List.foldl_cons] using hlk', hlast'⟩

/-- After `update_nodes` at timestamp `t`, every updated point's id is
present with `last = t`. -/
theorem update_nodes_sets_last (t : Int) :
    ∀ (ns : List PointRec) (d : List (String × NodeRec)) (p : PointRec), p ∈ ns →
      ∃ rc, (update_nodes t ns d).lookup p.id = some rc ∧ rc.last = t := by
  intro ns
  induction ns with
  | nil => intro d p hp; cases hp
  | cons n ns ih =>
    intro d p hp
    rcases List.mem_cons.mp hp with h | h
    · subst h
      obtain ⟨rc1, hlk1, hlast1⟩ := updateNode1_lookup_set t p d
      obtain ⟨rc', hlk', hlast'⟩ :=
        update_nodes_lookup_keep t ns (updateNode1 t p d) p.id rc1 hlk1 hlast1
      exact ⟨rc', by simpa [update_nodes, List.foldl_cons] using hlk', hlast'⟩
    · obtain ⟨rc', hlk', hlast'⟩ := ih (updateNode1 t n d) p h
      exact ⟨rc', by simpa [update_nodes, List.foldl_cons] using hlk', hlast'⟩

/-- After an edge-dict update, the updated edge id is present with
`last = t`. -/
theorem updateEdge1_lookup_set (t : Int) (e : Edge) :
    ∀ d : List (String × EdgeRec),
      ∃ rc, (updateEdge1 t e d).lookup e.id = some rc ∧ rc.last = t := by
  intro d
  induction d with
  | nil =>
    refine ⟨⟨t, t, e.from_, e.to_⟩, ?_, rfl⟩
    rw [updateEdge1, List.lookup_cons]
    simp
  | cons p rest ih =>
    rw [updateEdge1]
    by_cases hp : p.1 = e.id
    · rw [if_pos hp]
      refine ⟨{ p.2 with last := t }, ?_, rfl⟩
      rw [List.lookup_cons]
      simp [beq_iff_eq, hp.symm]
    · rw [if_neg hp]
      obtain ⟨rc, hlk, hlast⟩ := ih
      refine ⟨rc, ?_, hlast⟩
      rw [List.lookup_cons]
      simpa [beq_false_of_ne (fun h => hp h.symm)] using hlk

/-- An edge-dict update at timestamp `t` preserves `last = t` of any
stored record. -/
theorem updateEdge1_lookup_keep (t : Int) (e : Edge) :
    ∀ (d : List (String × EdgeRec)) (x : String) (rc : EdgeRec),
      d.lookup x = some rc → rc.last = t →
      ∃ rc', (updateEdge1 t e d).lookup x = some rc' ∧ rc'.last = t := by
  intro d
  induction d with
  | nil => intro x rc hlk _; cases hlk
  | cons p rest ih =>
    intro x rc hlk hlast
    rw [updateEdge1]
    obtain ⟨p1, p2⟩ := p
    by_cases hx : x = p1
    · have hxbeq : (x == p1) = true := beq_iff_eq.mpr hx
      have hrc : p2 = rc := by
        rw [List.lookup_cons] at hlk
        simpa [hxbeq] using hlk
      by_cases hp : p1 = e.id
      · rw [if_pos hp]
        refine ⟨{ p2 with last := t }, ?_, rfl⟩
        rw [List.lookup_cons]
        simp [hxbeq]
      · rw [if_neg hp]
        refine ⟨rc, ?_, hlast⟩
        rw [List.lookup_cons]
        simp [hxbeq, hrc]
    · have hlk' : rest.lookup x = some rc := by
        rw [List.lookup_cons] at hlk
        simpa [beq_false_of_ne hx] using hlk
      by_cases hp : p1 = e.id
      · rw [if_pos hp]
        refine ⟨rc, ?_, hlast⟩
        rw [List.lookup_cons]
        simpa [beq_false_of_ne hx] using hlk'
      · rw [if_neg hp]
        obtain ⟨rc', hlk2, hlast'⟩ := ih x rc hlk' hlast
        refine ⟨rc', ?_, hlast'⟩
        rw [List.lookup_cons]
        simpa [beq_false_of_ne hx] using hlk2

/-- `update_edges` at timestamp `t` preserves `last = t` of any stored
record. -/
theorem update_edges_lookup_keep (t : Int) :
    ∀ (es : List Edge) (d : List (String × EdgeRec)) (x : String) (rc : EdgeRec),
      d.lookup x = some rc → rc.last = t →
      ∃ rc', (update_edges t es d).lookup x = some rc' ∧ rc'.last = t := by
  intro es
  induction es with
  | nil => intro d x rc hlk hlast; exact ⟨rc, by simpa [update_edges] using hlk, hlast⟩
  | cons e es ih =>
    intro d x rc hlk hlast
    obtain ⟨rc1, hlk1, hlast1⟩ := updateEdge1_lookup_keep t e d x rc hlk hlast
    obtain ⟨rc', hlk', hlast'⟩ := ih (updateEdge1 t e d) x rc1 hlk1 hlast1
    exact ⟨rc', by simpa [update_edges, List.foldl_cons] using hlk', hlast'⟩

/-- After `update_edges` at timestamp `t`, every updated edge's id is
present with `last = t`. -/
theorem update_edges_sets_last (t : Int) :
    ∀ (es : List Edge) (d : List (String × EdgeRec)) (e : Edge), e ∈ es →
      ∃ rc, (update_edges t es d).lookup e.id = some rc ∧ rc.last = t := by
  intro es
  induction es with
  | nil => intro d e he; cases he
  | cons e1 es ih =>
    intro d e he
    rcases List.mem_cons.mp he with h | h
    · subst h
      obtain ⟨rc1, hlk1, hlast1⟩ := updateEdge1_lookup_set t e d
      obtain ⟨rc', hlk', hlast'⟩ :=
        update_edges_lookup_keep t es (updateEdge1 t e d) e.id rc1 hlk1 hlast1
      exact ⟨rc', by simpa [update_edges, List.foldl_cons] using hlk', hlast'⟩
    · obtain ⟨rc', hlk', hlast'⟩ := ih (updateEdge1 t e1 d) e h
      exact ⟨rc', by simpa [update_edges, List.foldl_cons] using hlk', hlast'⟩

/-- C2.  On a non-empty time-sorted input, the recorded snapshot sequence
is exactly: one entry per non-final timestamp group — recorded even when
its computed edge list is empty — plus the final group's entry exactly
when its computed edge list is non-empty; and the lifecycle tables are
updated from the final group either way (every final-group point and every
final-group edge has a record with `last` equal to the final timestamp). -/
theorem C2_snapshot_recording (data : List Row) (th : ℚ) (st : ConState)
    (hne : data ≠ [])
    (hsort : List.Pairwise (fun a b : Row => a.time ≤ b.time) data)
    (hcon : constructorInit data th = some st) :
    ∃ gl, (groups data).getLast? = some gl
      ∧ st.time_networks =
          ((groups data).dropLast.map
            (fun g => (g.1, Snapshot.mk g.2 (get_proximity_network th g.2))))
          ++ (if (get_proximity_network th gl.2).isEmpty then []
              else [(gl.1, Snapshot.mk gl.2 (get_proximity_network th gl.2))])
      ∧ (∀ p ∈ gl.2, ∃ rc, st.node_dict.lookup p.id = some rc ∧ rc.last = gl.1)
      ∧ (∀ e ∈ get_proximity_network th gl.2,
          ∃ rc, st.edge_dict.lookup e.id = some rc ∧ rc.last = gl.1) := by
  match data, hne, hsort, hcon with
  | r0 :: rest, _, hsort, hcon =>
    rw [constructorInit_eq_buildGroups th r0 rest] at hcon
    have hst : st = buildGroups th ⟨[], [], []⟩ (groups (r0 :: rest)) :=
      (Option.some.inj hcon).symm
    have hgne : groups (r0 :: rest) ≠ [] := by
      rw [groups]; exact groupsFrom_ne_nil rest r0.time [toPoint r0]
    have hb : buildGroups th ⟨[], [], []⟩ (groups (r0 :: rest))
        = finalFlushGroup th
            ((groups (r0 :: rest)).dropLast.foldl (flushGroup th) ⟨[], [], []⟩)
            ((groups (r0 :: rest)).getLast hgne) := by
      conv_lhs => rw [← List.dropLast_append_getLast hgne]
      exact buildGroups_eq_foldl th (groups (r0 :: rest)).dropLast
        ((groups (r0 :: rest)).getLast hgne) ⟨[], [], []⟩
    refine ⟨(groups (r0 :: rest)).getLast hgne, List.getLast?_eq_getLast _ hgne, ?_, ?_, ?_⟩
    · rw [hst, hb, finalFlushGroup]
      by_cases hempty :
          (get_proximity_network th ((groups (r0 :: rest)).getLast hgne).2).isEmpty
      · rw [if_pos hempty, if_pos hempty, foldl_flushGroup_time_networks]
        simp
      · rw [if_neg hempty, if_neg hempty, foldl_flushGroup_time_networks]
        simp
    · intro p hp
      rw [hst, hb, finalFlushGroup]
      exact update_nodes_sets_last _ _ _ p hp
    · intro e he
      rw [hst, hb, finalFlushGroup]
      exact update_edges_sets_last _ _ _ e he

/-- C2 witness: rows for `A` at time 0 and `B` at time 1, threshold 5.
The non-final group (time 0) is recorded with an empty edge list, the
final single-point group produces no edge and is not recorded, yet `B`
still gets its lifecycle record with `last = 1`. -/
theorem C2_snapshot_recording_witness :
    ∃ gl, (groups [⟨0, 0, 0, "A"⟩, ⟨1, 0, 0, "B"⟩]).getLast? = some gl
      ∧ (ConState.mk [("A", ⟨0, 0⟩), ("B", ⟨1, 1⟩)] []
          [(0, ⟨[⟨0, 0, "A"⟩], []⟩)]).time_networks =
          ((groups [⟨0, 0, 0, "A"⟩, ⟨1, 0, 0, "B"⟩]).dropLast.map
            (fun g => (g.1, Snapshot.mk g.2 (get_proximity_network 5 g.2))))
          ++ (if (get_proximity_network 5 gl.2).isEmpty then []
              else [(gl.1, Snapshot.mk gl.2 (get_proximity_network 5 gl.2))])
      ∧ (∀ p ∈ gl.2, ∃ rc,
          (ConState.mk [("A", ⟨0, 0⟩), ("B", ⟨1, 1⟩)] []
            [(0, ⟨[⟨0, 0, "A"⟩], []⟩)]).node_dict.lookup p.id = some rc ∧ rc.last = gl.1)
      ∧ (∀ e ∈ get_proximity_network 5 gl.2, ∃ rc,
          (ConState.mk [("A", ⟨0, 0⟩), ("B", ⟨1, 1⟩)] []
            [(0, ⟨[⟨0, 0, "A"⟩], []⟩)]).edge_dict.lookup e.id = some rc ∧ rc.last = gl.1) :=
  C2_snapshot_recording [⟨0, 0, 0, "A"⟩, ⟨1, 0, 0, "B"⟩] 5
    ⟨[("A", ⟨0, 0⟩), ("B", ⟨1, 1⟩)] , [], [(0, ⟨[⟨0, 0, "A"⟩], []⟩)]⟩
    (by decide) (by decide) (by decide)

/-- Folding one more duration into a value histogram raises its total by
exactly one. -/
theorem updHist_sum (v : Nat) :
    ∀ hist : ValueHist, ((updHist v hist).map Prod.snd).sum = (hist.map Prod.snd).sum + 1 := by
  intro hist
  induction hist with
  | nil => simp [updHist]
  | cons p rest ih =>
    rw [updHist]
    by_cases hp : p.1 = v
    · rw [if_pos hp]
      simp [Nat.add_assoc, Nat.add_comm 1]
    · rw [if_neg hp]
      simp only [List.map_cons, List.sum_cons, ih]
      omega

/-- Storing a duration for a node raises that node's histogram total by
exactly one. -/
theorem histSumNode_store_self (x : String) (v : Nat) :
    ∀ d : NodeHist,
      histSumNode (store_node_metric_duration x v d) x = histSumNode d x + 1 := by
  intro d
  induction d with
  | nil =>
    rw [store_node_metric_duration, histSumNode, histSumNode]
    simp [List.lookup_cons]
  | cons p rest ih =>
    obtain ⟨p1, p2⟩ := p
    rw [store_node_metric_duration]
    by_cases hp : p1 = x
    · rw [if_pos (by exact hp)]
      have hxbeq : (x == p1) = true := beq_iff_eq.mpr hp.symm
      rw [histSumNode, histSumNode, List.lookup_cons, List.lookup_cons, hxbeq]
      simp [updHist_sum]
    · rw [if_neg (by exact hp)]
      have hxbeq : (x == p1) = false := beq_false_of_ne (fun h => hp h.symm)
      rw [histSumNode, histSumNode, List.lookup_cons, List.lookup_cons, hxbeq]
      exact ih

/-- Storing a duration for one node leaves every other node's histogram
total unchanged. -/
theorem histSumNode_store_other (x y : String) (v : Nat) (hxy : y ≠ x) :
    ∀ d : NodeHist,
      histSumNode (store_node_metric_duration x v d) y = histSumNode d y := by
  intro d
  induction d with
  | nil =>
    rw [store_node_metric_duration, histSumNode, histSumNode]
    simp [List.lookup_cons, beq_false_of_ne hxy]
  | cons p rest ih =>
    obtain ⟨p1, p2⟩ := p
    rw [store_node_metric_duration]
    by_cases hp : p1 = x
    · rw [if_pos (by exact hp)]
      have hybeq : (y == p1) = false := beq_false_of_ne (fun h => hxy (h.trans hp))
      rw [histSumNode, histSumNode, List.lookup_cons, List.lookup_cons, hybeq]
    · rw [if_neg (by exact hp)]
      by_cases hy : y = p1
      · have hybeq : (y == p1) = true := beq_iff_eq.mpr hy
        rw [histSumNode, histSumNode, List.lookup_cons, List.lookup_cons, hybeq]
      · have hybeq : (y == p1) = false := beq_false_of_ne hy
        rw [histSumNode, histSumNode, List.lookup_cons, List.lookup_cons, hybeq]
        exact ih

/-- The degree loop (one store per graph node) raises the histogram total
of `x` by one exactly when `x` is a node of the graph. -/
theorem degree_fold_histSum (f : String → Nat) :
    ∀ (vs : List String) (d : NodeHist) (x : String), vs.Nodup →
      histSumNode (vs.foldl (fun d v => store_node_metric_duration v (f v) d) d) x
        = histSumNode d x + (if x ∈ vs then 1 else 0) := by
  intro vs
  induction vs with
  | nil => intro d x _; simp
  | cons v vs ih =>
    intro d x hnd
    rw [List.nodup_cons] at hnd
    rw [List.foldl_cons, ih _ x hnd.2]
    by_cases hx : x = v
    · subst hx
      rw [histSumNode_store_self]
      have hnotin : x ∉ vs := hnd.1
      simp [hnotin]
    · rw [histSumNode_store_other v x (f v) hx]
      by_cases hmem : x ∈ vs
      · simp [hmem, List.mem_cons, hx]
      · simp [hmem, List.mem_cons, hx]

/-- Inserting into the graph-node list preserves distinctness. -/
theorem insertNew_nodup (l : List String) (x : String) (hl : l.Nodup) :
    (insertNew l x).Nodup := by
  rw [insertNew]
  by_cases hx : x ∈ l
  · rw [if_pos hx]; exact hl
  · rw [if_neg hx]
    rw [List.nodup_append]
    refine ⟨hl, List.nodup_singleton x, ?_⟩
    intro a ha hb
    simp only [List.mem_singleton] at hb
    subst hb
    exact hx ha

/-- The node-registration fold keeps the node list distinct. -/
theorem nodesFold_nodup :
    ∀ (ns : List PointRec) (l : List String), l.Nodup →
      (ns.foldl (fun l n => insertNew l n.id) l).Nodup := by
  intro ns
  induction ns with
  | nil => intro l hl; simpa using hl
  | cons n ns ih =>
    intro l hl
    rw [List.foldl_cons]
    exact ih _ (insertNew_nodup l n.id hl)

/-- The edge-registration fold keeps the node list distinct. -/
theorem edgesFold_nodup :
    ∀ (es : List Edge) (l : List String), l.Nodup →
      (es.foldl (fun l e => insertNew (insertNew l e.from_) e.to_) l).Nodup := by
  intro es
  induction es with
  | nil => intro l hl; simpa using hl
  | cons e es ih =>
    intro l hl
    rw [List.foldl_cons]
    exact ih _ (insertNew_nodup _ e.to_ (insertNew_nodup l e.from_ hl))

/-- The snapshot graph's node list has no duplicates. -/
theorem graphNodes_nodup (s : Snapshot) : (graphNodes s).Nodup := by
  rw [graphNodes]
  exact edgesFold_nodup s.edges _ (nodesFold_nodup s.nodes [] List.nodup_nil)

/-- The degree table produced by one snapshot step: touched exactly by the
degree loop when the metric is requested. -/
theorem processSnapshot_degree (m : Metrics) (h : History) (s : Snapshot) :
    (processSnapshot m h s).degree
      = if m.degree then
          (graphNodes s).foldl
            (fun d v => store_node_metric_duration v (degree s v) d) h.degree
        else h.degree := by
  rcases m with ⟨md, mt, mm, mc, mcd⟩
  cases md <;> cases mt <;> cases mm <;> cases mc <;> cases mcd <;> rfl

/-- C10 amended.  With the degree metric requested, the total of a node's
degree duration histogram equals the number of processed snapshots whose
graph contains the node — i.e. snapshots that list the id as a node or
mention it as an edge endpoint (networkx adds edge endpoints to the
graph, which is what the original claim's "node list" misses). -/
theorem C10_degree_histogram_sum_amended (snaps : List Snapshot) (m : Metrics)
    (x : String) (hdeg : m.degree = true) :
    histSumNode (naiveNodeImportance snaps m).degree x
      = snaps.countP (fun s => decide (x ∈ graphNodes s)) := by
  have key : ∀ (ss : List Snapshot) (h : History),
      histSumNode ((ss.foldl (processSnapshot m) h).degree) x
        = histSumNode h.degree x + ss.countP (fun s => decide (x ∈ graphNodes s)) := by
    intro ss
    induction ss with
    | nil => intro h; simp
    | cons s ss ih =>
      intro h
      rw [List.foldl_cons, ih, List.countP_cons]
      have hd : (processSnapshot m h s).degree
          = (graphNodes s).foldl
              (fun d v => store_node_metric_duration v (degree s v) d) h.degree := by
        rw [processSnapshot_degree, if_pos hdeg]
      rw [hd, degree_fold_histSum (degree s) (graphNodes s) h.degree x (graphNodes_nodup s)]
      by_cases hmem : x ∈ graphNodes s
      · simp [hmem]
        omega
      · simp [hmem]
  rw [naiveNodeImportance, key]
  simp [histSumNode]

/-- C10 amended, witness: the snapshot with nodes `A`, `B` and edge `A_B`
contributes exactly one degree-duration count for `A`. -/
theorem C10_degree_histogram_sum_amended_witness :
    histSumNode (naiveNodeImportance [snapAB] metricsDegree).degree "A"
      = [snapAB].countP (fun s => decide ("A" ∈ graphNodes s)) :=
  C10_degree_histogram_sum_amended [snapAB] metricsDegree "A" rfl

/-- Every triple emitted by the inner loops has the shape
`(v, neighbour, common)` with all the loop's filter conditions satisfied. -/
theorem triInner_sound {V : Type} [DecidableEq V] (adj : V → V → Bool)
    (done : List V) (v : V) (nbrs : List V) :
    ∀ (ns nd : List V) (t : V × V × V), t ∈ triInner adj done v nbrs ns nd →
      ∃ u w, t = (v, u, w) ∧ u ∈ ns ∧ u ∉ done ∧ w ∈ nbrs ∧ adj u w = true
        ∧ w ∉ done ∧ w ∉ nd ∧ w ≠ u := by
  intro ns
  induction ns with
  | nil => intro nd t ht; cases ht
  | cons u1 rest ih =>
    intro nd t ht
    rw [triInner] at ht
    by_cases h1 : u1 ∈ done
    · rw [if_pos h1] at ht
      obtain ⟨u, w, ht, hu, hud, hw, ha, hwd, hwnd, hwu⟩ := ih nd t ht
      exact ⟨u, w, ht, List.mem_cons_of_mem u1 hu, hud, hw, ha, hwd, hwnd, hwu⟩
    · rw [if_neg h1] at ht
      rcases List.mem_append.mp ht with ht | ht
      · obtain ⟨w, hwmem, hweq⟩ := List.mem_map.mp ht
        obtain ⟨hwnbrs, hcond⟩ := List.mem_filter.mp hwmem
        simp only [Bool.and_eq_true, Bool.not_eq_true', decide_eq_false_iff_not] at hcond
        obtain ⟨⟨ha, hwd⟩, hwund⟩ := hcond
        rw [List.mem_cons] at hwund
        push_neg at hwund
        exact ⟨u1, w, hweq.symm, List.mem_cons_self u1 rest, h1, hwnbrs, ha, hwd,
          hwund.2, hwund.1⟩
      · obtain ⟨u, w, ht, hu, hud, hw, ha, hwd, hwnd, hwu⟩ := ih (u1 :: nd) t ht
        rw [List.mem_cons] at hwnd
        push_neg at hwnd
        exact ⟨u, w, ht, List.mem_cons_of_mem u1 hu, hud, hw, ha, hwd, hwnd.2, hwu⟩

/-- Permuting the two non-centre members of a triple's member set. -/
theorem triSet_swap {V : Type} [DecidableEq V] (v b c : V) :
    ({v, c, b} : Finset V) = {v, b, c} := by
  ext y; simp; tauto

/-- Moving the first member of a triple's member set to the middle. -/
theorem triSet_comm3 {V : Type} [DecidableEq V] (a b c : V) :
    ({b, a, c} : Finset V) = {a, b, c} := by
  ext y; simp; tauto

/-- Rotating a triple's member set. -/
theorem triSet_rot3 {V : Type} [DecidableEq V] (a b c : V) :
    ({c, a, b} : Finset V) = {a, b, c} := by
  ext y; simp; tauto

/-- Completeness of the inner loops: an adjacent pair of still-unprocessed
neighbours of `v` yields a triple with member set `{v, b, c}`. -/
theorem triInner_complete {V : Type} [DecidableEq V] (adj : V → V → Bool)
    (done : List V) (v : V) (nbrs : List V)
    (hsym : ∀ a b, adj a b = adj b a) :
    ∀ (ns nd : List V) (b c : V), b ∈ ns → c ∈ ns → b ≠ c → adj b c = true →
      b ∉ done → c ∉ done → b ∉ nd → c ∉ nd → b ∈ nbrs → c ∈ nbrs →
      ∃ t ∈ triInner adj done v nbrs ns nd, triSet t = {v, b, c} := by
  intro ns
  induction ns with
  | nil => intro nd b c hb hc; cases hb
  | cons x rest ih =>
    intro nd b c hb hc hbc ha hbd hcd hbnd hcnd hbn hcn
    rw [triInner]
    by_cases hxdone : x ∈ done
    · rw [if_pos hxdone]
      have hbx : b ≠ x := fun h => hbd (h ▸ hxdone)
      have hcx : c ≠ x := fun h => hcd (h ▸ hxdone)
      exact ih nd b c (List.mem_of_ne_of_mem hbx hb) (List.mem_of_ne_of_mem hcx hc)
        hbc ha hbd hcd hbnd hcnd hbn hcn
    · rw [if_neg hxdone]
      by_cases hxb : x = b
      · subst hxb
        refine ⟨(v, x, c), List.mem_append_left _ ?_, rfl⟩
        apply List.mem_map.mpr
        refine ⟨c, List.mem_filter.mpr ⟨hcn, ?_⟩, rfl⟩
        simp only [Bool.and_eq_true, Bool.not_eq_true', decide_eq_false_iff_not]
        refine ⟨⟨ha, hcd⟩, ?_⟩
        rw [List.mem_cons]
        push_neg
        exact ⟨fun h => hbc h.symm, hcnd⟩
      · by_cases hxc : x = c
        · subst hxc
          refine ⟨(v, x, b), List.mem_append_left _ ?_, triSet_swap v b x⟩
          apply List.mem_map.mpr
          refine ⟨b, List.mem_filter.mpr ⟨hbn, ?_⟩, rfl⟩
          simp only [Bool.and_eq_true, Bool.not_eq_true', decide_eq_false_iff_not]
          refine ⟨⟨by rw [hsym]; exact ha, hbd⟩, ?_⟩
          rw [List.mem_cons]
          push_neg
          exact ⟨hbc, hbnd⟩
        · obtain ⟨t, ht, hts⟩ := ih (x :: nd) b c
            (List.mem_of_ne_of_mem (fun h => hxb h.symm) hb)
            (List.mem_of_ne_of_mem (fun h => hxc h.symm) hc)
            hbc ha hbd hcd
            (by rw [List.mem_cons]; push_neg; exact ⟨fun h => hxb h.symm, hbnd⟩)
            (by rw [List.mem_cons]; push_neg; exact ⟨fun h => hxc h.symm, hcnd⟩)
            hbn hcn
          exact ⟨t, List.mem_append_right _ ht, hts⟩

/-- No two triples emitted by the inner loops share their member set:
the `neighbors_done` accumulator blocks the symmetric re-emission. -/
theorem triInner_pairwise {V : Type} [DecidableEq V] (adj : V → V → Bool)
    (done : List V) (v : V) (nbrs : List V)
    (hvdone : v ∈ done) (hnbrs : nbrs.Nodup) :
    ∀ (ns nd : List V), ns.Nodup →
      (triInner adj done v nbrs ns nd).Pairwise
        (fun t t' => triSet t ≠ triSet t') := by
  intro ns
  induction ns with
  | nil => intro nd _; exact List.Pairwise.nil
  | cons x rest ih =>
    intro nd hns
    rw [List.nodup_cons] at hns
    rw [triInner]
    by_cases hxdone : x ∈ done
    · rw [if_pos hxdone]
      exact ih nd hns.2
    · rw [if_neg hxdone]
      rw [List.pairwise_append]
      refine ⟨?_, ih (x :: nd) hns.2, ?_⟩
      · rw [List.pairwise_map]
        have hfil : ((nbrs.filter
            (fun w => adj x w && !(decide (w ∈ done)) && !(decide (w ∈ x :: nd))))).Nodup :=
          hnbrs.filter _
        refine List.Pairwise.imp_of_mem ?_ hfil
        intro w w' hw hw' hww hset
        obtain ⟨-, hcond⟩ := List.mem_filter.mp hw
        obtain ⟨-, hcond'⟩ := List.mem_filter.mp hw'
        simp only [Bool.and_eq_true, Bool.not_eq_true', decide_eq_false_iff_not] at hcond hcond'
        have hwv : w ≠ v := fun h => hcond.1.2 (h ▸ hvdone)
        have hwx : w ≠ x := fun h => hcond.2 (h ▸ List.mem_cons_self x nd)
        have hmem : w ∈ triSet (v, x, w') := by
          rw [← hset]
          simp [triSet]
        simp only [triSet, Finset.mem_insert, Finset.mem_singleton] at hmem
        rcases hmem with h | h | h
        · exact hwv h
        · exact hwx h
        · exact hww h
      · intro t ht t' ht' hset
        obtain ⟨w, hwmem, hweq⟩ := List.mem_map.mp ht
        obtain ⟨u', w', ht'eq, hu', hu'd, hw', ha', hw'd, hw'nd, hw'u⟩ :=
          triInner_sound adj done v nbrs rest (x :: nd) t' ht'
        have hx : x ∈ triSet t := by
          rw [← hweq]
          simp [triSet]
        rw [hset, ht'eq] at hx
        simp only [triSet, Finset.mem_insert, Finset.mem_singleton] at hx
        rcases hx with h | h | h
        · exact hxdone (h ▸ hvdone)
        · exact hns.1 (h ▸ hu')
        · exact hw'nd (h ▸ List.mem_cons_self x nd)

/-- Every triple of the outer loop has a centre still to process and two
strictly later, pairwise-adjacent companions. -/
theorem triOuter_sound {V : Type} [DecidableEq V] (vs : List V) (adj : V → V → Bool) :
    ∀ (os done : List V) (t : V × V × V), t ∈ triOuter vs adj os done →
      ∃ v u w, t = (v, u, w) ∧ v ∈ os ∧ u ∉ done ∧ w ∉ done ∧ u ≠ v ∧ w ≠ v ∧ w ≠ u
        ∧ adj v u = true ∧ adj v w = true ∧ adj u w = true ∧ u ∈ vs ∧ w ∈ vs := by
  intro os
  induction os with
  | nil => intro done t ht; cases ht
  | cons v1 osrest ih =>
    intro done t ht
    rw [triOuter] at ht
    rcases List.mem_append.mp ht with ht | ht
    · obtain ⟨u, w, hteq, hu, hud, hw, ha, hwd, hwnd, hwu⟩ :=
        triInner_sound adj (v1 :: done) v1 (vs.filter (adj v1)) _ [] t ht
      obtain ⟨huvs, hadjvu⟩ := List.mem_filter.mp hu
      obtain ⟨hwvs, hadjvw⟩ := List.mem_filter.mp hw
      rw [List.mem_cons] at hud hwd
      push_neg at hud hwd
      exact ⟨v1, u, w, hteq, List.mem_cons_self v1 osrest, hud.2, hwd.2,
        hud.1, hwd.1, hwu, hadjvu, hadjvw, ha, huvs, hwvs⟩
    · obtain ⟨v, u, w, hteq, hv, hud, hwd, huv, hwv, hwu, h1, h2, h3, h4, h5⟩ :=
        ih (v1 :: done) t ht
      rw [List.mem_cons] at hud hwd
      push_neg at hud hwd
      exact ⟨v, u, w, hteq, List.mem_cons_of_mem v1 hv, hud.2, hwd.2,
        huv, hwv, hwu, h1, h2, h3, h4, h5⟩

/-- No two triples of the outer loop share their member set: the global
`done` set blocks re-emission at later centres. -/
theorem triOuter_pairwise {V : Type} [DecidableEq V] (vs : List V) (adj : V → V → Bool)
    (hvs : vs.Nodup) :
    ∀ (os done : List V), os.Nodup → (∀ x ∈ os, x ∉ done) →
      (triOuter vs adj os done).Pairwise (fun t t' => triSet t ≠ triSet t') := by
  intro os
  induction os with
  | nil => intro done _ _; exact List.Pairwise.nil
  | cons v1 osrest ih =>
    intro done hos hdisj
    rw [List.nodup_cons] at hos
    rw [triOuter, List.pairwise_append]
    refine ⟨?_, ?_, ?_⟩
    · exact triInner_pairwise adj (v1 :: done) v1 (vs.filter (adj v1))
        (List.mem_cons_self v1 done) (hvs.filter _) _ [] (hvs.filter _)
    · apply ih (v1 :: done) hos.2
      intro x hx
      rw [List.mem_cons]
      push_neg
      exact ⟨fun h => hos.1 (h ▸ hx), hdisj x (List.mem_cons_of_mem v1 hx)⟩
    · intro t ht t' ht' hset
      obtain ⟨u, w, hteq, hu, hud, hw, ha, hwd, hwnd, hwu⟩ :=
        triInner_sound adj (v1 :: done) v1 (vs.filter (adj v1)) _ [] t ht
      obtain ⟨v', u', w', ht'eq, hv', hu'd, hw'd, hu'v, hw'v, hw'u, _, _, _, _, _⟩ :=
        triOuter_sound vs adj osrest (v1 :: done) t' ht'
      have hv1 : v1 ∈ triSet t := by
        rw [hteq]; simp [triSet]
      rw [hset, ht'eq] at hv1
      simp only [triSet, Finset.mem_insert, Finset.mem_singleton] at hv1
      rw [List.mem_cons] at hu'd hw'd
      push_neg at hu'd hw'd
      rcases hv1 with h | h | h
      · exact hos.1 (h ▸ hv')
      · exact hu'd.1 h.symm
      · exact hw'd.1 h.symm

/-- Completeness of the outer loop: a 3-clique whose members are all still
to process yields a triple with exactly that member set. -/
theorem triOuter_complete {V : Type} [DecidableEq V] (vs : List V) (adj : V → V → Bool)
    (hsym : ∀ a b, adj a b = adj b a) :
    ∀ (os done : List V) (a b c : V), a ∈ os → b ∈ os → c ∈ os →
      a ∉ done → b ∉ done → c ∉ done →
      a ≠ b → a ≠ c → b ≠ c →
      adj a b = true → adj a c = true → adj b c = true →
      a ∈ vs → b ∈ vs → c ∈ vs →
      ∃ t ∈ triOuter vs adj os done, triSet t = {a, b, c} := by
  intro os
  induction os with
  | nil => intro done a b c ha; intro _ _ _ _ _ _ _ _ _ _ _ _ _ _; cases ha
  | cons x osrest ih =>
    intro done a b c ha hb hc had hbd hcd hab hac hbc hadjab hadjac hadjbc havs hbvs hcvs
    rw [triOuter]
    by_cases hxa : x = a
    · subst hxa
      obtain ⟨t, ht, hts⟩ := triInner_complete adj (x :: done) x (vs.filter (adj x)) hsym
        (vs.filter (adj x)) [] b c
        (List.mem_filter.mpr ⟨hbvs, hadjab⟩) (List.mem_filter.mpr ⟨hcvs, hadjac⟩)
        hbc hadjbc
        (by rw [List.mem_cons]; push_neg; exact ⟨fun h => hab h.symm, hbd⟩)
        (by rw [List.mem_cons]; push_neg; exact ⟨fun h => hac h.symm, hcd⟩)
        (List.not_mem_nil b) (List.not_mem_nil c)
        (List.mem_filter.mpr ⟨hbvs, hadjab⟩) (List.mem_filter.mpr ⟨hcvs, hadjac⟩)
      exact ⟨t, List.mem_append_left _ ht, hts⟩
    · by_cases hxb : x = b
      · subst hxb
        obtain ⟨t, ht, hts⟩ := triInner_complete adj (x :: done) x (vs.filter (adj x)) hsym
          (vs.filter (adj x)) [] a c
          (List.mem_filter.mpr ⟨havs, by rw [hsym]; exact hadjab⟩)
          (List.mem_filter.mpr ⟨hcvs, hadjbc⟩)
          hac hadjac
          (by rw [List.mem_cons]; push_neg; exact ⟨hab, had⟩)
          (by rw [List.mem_cons]; push_neg; exact ⟨fun h => hbc h.symm, hcd⟩)
          (List.not_mem_nil a) (List.not_mem_nil c)
          (List.mem_filter.mpr ⟨havs, by rw [hsym]; exact hadjab⟩)
          (List.mem_filter.mpr ⟨hcvs, hadjbc⟩)
        exact ⟨t, List.mem_append_left _ ht, by rw [hts]; exact triSet_comm3 a x c⟩
      · by_cases hxc : x = c
        · subst hxc
          obtain ⟨t, ht, hts⟩ := triInner_complete adj (x :: done) x (vs.filter (adj x)) hsym
            (vs.filter (adj x)) [] a b
            (List.mem_filter.mpr ⟨havs, by rw [hsym]; exact hadjac⟩)
            (List.mem_filter.mpr ⟨hbvs, by rw [hsym]; exact hadjbc⟩)
            hab hadjab
            (by rw [List.mem_cons]; push_neg; exact ⟨hac, had⟩)
            (by rw [List.mem_cons]; push_neg; exact ⟨hbc, hbd⟩)
            (List.not_mem_nil a) (List.not_mem_nil b)
            (List.mem_filter.mpr ⟨havs, by rw [hsym]; exact hadjac⟩)
            (List.mem_filter.mpr ⟨hbvs, by rw [hsym]; exact hadjbc⟩)
          exact ⟨t, List.mem_append_left _ ht, by rw [hts]; exact triSet_rot3 a b x⟩
        · obtain ⟨t, ht, hts⟩ := ih (x :: done) a b c
            (List.mem_of_ne_of_mem (fun h => hxa h.symm) ha)
            (List.mem_of_ne_of_mem (fun h => hxb h.symm) hb)
            (List.mem_of_ne_of_mem (fun h => hxc h.symm) hc)
            (by rw [List.mem_cons]; push_neg; exact ⟨fun h => hxa h.symm, had⟩)
            (by rw [List.mem_cons]; push_neg; exact ⟨fun h => hxb h.symm, hbd⟩)
            (by rw [List.mem_cons]; push_neg; exact ⟨fun h => hxc h.symm, hcd⟩)
            hab hac hbc hadjab hadjac hadjbc havs hbvs hcvs
          exact ⟨t, List.mem_append_right _ ht, hts⟩

/-- In a list whose elements have pairwise-distinct images, the image that
does occur occurs exactly once. -/
theorem countP_eq_one_of_pairwise {α β : Type} [DecidableEq β] (f : α → β) (S : β) :
    ∀ l : List α, l.Pairwise (fun t t' => f t ≠ f t') →
      ∀ t ∈ l, f t = S → l.countP (fun t => decide (f t = S)) = 1 := by
  intro l
  induction l with
  | nil => intro _ t ht; cases ht
  | cons x rest ih =>
    intro hpw t ht hfS
    rw [List.pairwise_cons] at hpw
    rw [List.countP_cons]
    rcases List.mem_cons.mp ht with h | h
    · subst h
      have hzero : rest.countP (fun t' => decide (f t' = S)) = 0 := by
        rw [List.countP_eq_zero]
        intro t' ht' hp
        rw [decide_eq_true_eq] at hp
        exact hpw.1 t' ht' (hfS.trans hp.symm)
      rw [hzero, hfS]
      simp
    · rw [ih hpw.2 t h hfS]
      have hfx : ¬ (f x = S) := fun hx => hpw.1 t h (hx.trans hfS.symm)
      simp [hfx]

set_option maxHeartbeats 1600000 in
/-- C3.  `get_all_triangles` enumerates each unordered 3-clique exactly
once: every returned triple is three distinct pairwise-adjacent vertices
of the graph, and every 3-clique `{a, b, c}` appears as exactly one
returned triple.  In particular on the complete graph K4 it returns
exactly 4 triangles with each vertex occurring in exactly 3 of them. -/
theorem C3_triangle_enumeration :
    (∀ (V : Type) (inst : DecidableEq V) (vs : List V) (adj : V → V → Bool),
      (∀ a b, adj a b = adj b a) → (∀ a, adj a a = false) → vs.Nodup →
      ((∀ t ∈ get_all_triangles vs adj,
          t.1 ∈ vs ∧ t.2.1 ∈ vs ∧ t.2.2 ∈ vs
          ∧ t.1 ≠ t.2.1 ∧ t.1 ≠ t.2.2 ∧ t.2.1 ≠ t.2.2
          ∧ adj t.1 t.2.1 = true ∧ adj t.1 t.2.2 = true ∧ adj t.2.1 t.2.2 = true)
        ∧ (∀ a b c : V, a ∈ vs → b ∈ vs → c ∈ vs → a ≠ b → a ≠ c → b ≠ c →
            adj a b = true → adj a c = true → adj b c = true →
            (get_all_triangles vs adj).countP
              (fun t => decide (triSet t = {a, b, c})) = 1)))
    ∧ ((get_all_triangles [0, 1, 2, 3] k4adj).length = 4
        ∧ ∀ v ∈ [0, 1, 2, 3],
            ((get_all_triangles [0, 1, 2, 3] k4adj).countP
              (fun t => decide (v ∈ triSet t))) = 3) := by
  constructor
  · intro V inst vs adj hsym hirr hnodup
    constructor
    · intro t ht
      obtain ⟨v, u, w, hteq, hv, _, _, huv, hwv, hwu, h1, h2, h3, h4, h5⟩ :=
        triOuter_sound vs adj vs [] t ht
      subst hteq
      exact ⟨hv, h4, h5, Ne.symm huv, Ne.symm hwv, Ne.symm hwu, h1, h2, h3⟩
    · intro a b c ha hb hc hab hac hbc h1 h2 h3
      obtain ⟨t, ht, hts⟩ := triOuter_complete vs adj hsym vs [] a b c ha hb hc
        (List.not_mem_nil a) (List.not_mem_nil b) (List.not_mem_nil c)
        hab hac hbc h1 h2 h3 ha hb hc
      exact countP_eq_one_of_pairwise triSet {a, b, c} _
        (triOuter_pairwise vs adj hnodup vs [] hnodup (fun x _ => List.not_mem_nil x))
        t ht hts
  · exact ⟨by decide, by decide⟩

set_option maxHeartbeats 1600000 in
/-- C3 witness: on K4 the clique `{0, 1, 2}` is returned exactly once. -/
theorem C3_triangle_enumeration_witness :
    (get_all_triangles [0, 1, 2, 3] k4adj).countP
      (fun t => decide (triSet t = ({0, 1, 2} : Finset ℕ))) = 1 :=
  (C3_triangle_enumeration.1 ℕ (by infer_instance) [0, 1, 2, 3] k4adj
      (fun a b => decide_eq_decide.mpr ne_comm)
      (fun a => by simp [k4adj])
      (by decide)).2 0 1 2 (by decide) (by decide) (by decide) (by decide) (by decide)
      (by decide) (by decide) (by decide) (by decide)
